import Mathlib

/-!
Formal model of the Linux Monitoring and Alerting System (monitor.py).

Embedding conventions:
- File contents are modeled as character lists (List Char); the byte/text
  decode step with replacement markers (decode(errors="replace")) is modeled
  as the identity, and byte offsets are character offsets.  All examples and
  claims concern single-byte characters, where the two coincide.
- Numbers appearing in metrics samples, thresholds and the persisted state
  are modeled as integers (Python floats whose fractional rendering is not
  exercised by any claim).
- JSON values are modeled by the bounded-depth type the state file of the
  program actually uses: a top-level document that is a scalar or a
  dictionary whose values are scalars or flat dictionaries of scalars
  (the persisted record is such a two-level record: log_pos plus a flat
  metrics dictionary, possibly with extra scalar entries).
- External effects (psutil metrics, the SMTP transport, the filesystem)
  are passed in as explicit inputs: a cycle environment carries the metrics
  outcome, the monitored log file content and whether the transport works.
- Python exceptions are modeled with Except; an uncaught exception is an
  error value that propagates.
-/

/-! Basic character and list utilities -/

def lowerList (l : List Char) : List Char := l.map Char.toLower

def listStarts : List Char → List Char → Bool
  | [], _ => true
  | _ :: _, [] => false
  | a :: ns, b :: hs => a = b && listStarts ns hs

def substrIn : List Char → List Char → Bool
  | n, [] => listStarts n []
  | n, c :: t => listStarts n (c :: t) || substrIn n t

def splitlinesGo (cur : List Char) : List Char → List (List Char)
  | [] => if cur.isEmpty then [] else [cur.reverse]
  | '\r' :: '\n' :: rest => cur.reverse :: splitlinesGo [] rest
  | '\r' :: rest => cur.reverse :: splitlinesGo [] rest
  | '\n' :: rest => cur.reverse :: splitlinesGo [] rest
  | c :: rest => splitlinesGo (c :: cur) rest

/-- Model of Python str.splitlines restricted to the line terminators
the monitored logs use (line feed, carriage return, and their pair). -/
def splitlines (s : List Char) : List (List Char) := splitlinesGo [] s

/-- The chunk of characters a bounded read returns: the file content from
offset f, capped at cap characters (f.read of monitor.py line 77). -/
def readData (content : List Char) (f : Nat) (cap : Nat) : List Char :=
  (content.drop f).take cap

/-! Association lists modeling Python dictionaries (insertion ordered;
assignment updates the value in place, or appends a fresh key). -/

def dictLookup {α : Type} : List (List Char × α) → List Char → Option α
  | [], _ => none
  | (k, v) :: rest, key => if k = key then some v else dictLookup rest key

def dictGetD {α : Type} (d : List (List Char × α)) (key : List Char) (dflt : α) : α :=
  (dictLookup d key).getD dflt

def dictSet {α : Type} : List (List Char × α) → List Char → α → List (List Char × α)
  | [], key, v => [(key, v)]
  | (k, w) :: rest, key, v =>
      if k = key then (k, v) :: rest else (k, w) :: dictSet rest key v

def keyNotIn {α : Type} : List Char → List (List Char × α) → Bool
  | _, [] => true
  | key, (k, _) :: rest => !(k = key : Bool) && keyNotIn key rest

/-! The JSON value model (see the header): scalars, values, documents. -/

inductive PyLeaf where
  | null : PyLeaf
  | int : Int → PyLeaf
  | str : List Char → PyLeaf
  deriving DecidableEq

inductive PyVal where
  | leaf : PyLeaf → PyVal
  | obj : List (List Char × PyLeaf) → PyVal
  deriving DecidableEq

inductive PyDoc where
  | leafDoc : PyLeaf → PyDoc
  | dictDoc : List (List Char × PyVal) → PyDoc
  deriving DecidableEq

/-! Metrics sample (metrics_snapshot builds this dictionary; the psutil
calls themselves are external, so a sample or a collection failure is an
input of each cycle). -/

structure Snapshot where
  cpu_percent : Int
  mem_percent : Int
  disk_percent : Int
  net_bytes_sent : Int
  net_bytes_recv : Int
  deriving DecidableEq

def cpuPercentKey : List Char := ['c', 'p', 'u', '_', 'p', 'e', 'r', 'c', 'e', 'n', 't']

def memPercentKey : List Char := ['m', 'e', 'm', '_', 'p', 'e', 'r', 'c', 'e', 'n', 't']

def diskPercentKey : List Char := ['d', 'i', 's', 'k', '_', 'p', 'e', 'r', 'c', 'e', 'n', 't']

def netSentKey : List Char :=
  ['n', 'e', 't', '_', 'b', 'y', 't', 'e', 's', '_', 's', 'e', 'n', 't']

def netRecvKey : List Char :=
  ['n', 'e', 't', '_', 'b', 'y', 't', 'e', 's', '_', 'r', 'e', 'c', 'v']

def logPosKey : List Char := ['l', 'o', 'g', '_', 'p', 'o', 's']

def lastSnapshotKey : List Char :=
  ['l', 'a', 's', 't', '_', 's', 'n', 'a', 'p', 's', 'h', 'o', 't']

def snapshotToPyVal (s : Snapshot) : PyVal :=
  .obj [(cpuPercentKey, .int s.cpu_percent), (memPercentKey, .int s.mem_percent),
        (diskPercentKey, .int s.disk_percent), (netSentKey, .int s.net_bytes_sent),
        (netRecvKey, .int s.net_bytes_recv)]

/-! check_thresholds (monitor.py lines 59-67) -/

def cpuMsg (v : Int) : String := "CPU usage high: " ++ toString v ++ "%"

def memMsg (v : Int) : String := "Memory usage high: " ++ toString v ++ "%"

def diskMsg (v : Int) : String := "Disk usage high: " ++ toString v ++ "%"

def check_thresholds (snapshot : Snapshot) (thresholds : List (List Char × Int)) :
    List String :=
  let alerts : List String := []
  let alerts := if snapshot.cpu_percent ≥ dictGetD thresholds cpuPercentKey 90
    then alerts ++ [cpuMsg snapshot.cpu_percent] else alerts
  let alerts := if snapshot.mem_percent ≥ dictGetD thresholds memPercentKey 90
    then alerts ++ [memMsg snapshot.mem_percent] else alerts
  let alerts := if snapshot.disk_percent ≥ dictGetD thresholds diskPercentKey 90
    then alerts ++ [diskMsg snapshot.disk_percent] else alerts
  alerts

/-! tail_log (monitor.py lines 69-84).  The file argument is the content
of the monitored log file, or none when the path does not exist.  The
offset argument is the raw value taken from the state dictionary: seek
raises on a negative or non-integer argument, which only happens when the
file exists (the absence check returns first). -/

inductive TailErr where
  | osError : TailErr
  | typeError : TailErr
  deriving DecidableEq

def tail_log (file : Option (List Char)) (last_pos : PyVal) (max_bytes : Nat) :
    Except TailErr (List (List Char) × Int) :=
  match file with
  | none => .ok ([], 0)
  | some content =>
    match last_pos with
    | .leaf (.int i) =>
        if i < 0 then .error .osError
        else
          let data := readData content i.toNat max_bytes
          .ok (splitlines data, i + data.length)
    | _ => .error .typeError

/-! scan_for_patterns (monitor.py lines 86-93): first matching pattern
wins and the line is appended once (the inner break). -/

def lineMatches (patterns : List (List Char)) (ln : List Char) : Bool :=
  patterns.any (fun p => substrIn (lowerList p) (lowerList ln))

def scan_for_patterns (lines : List (List Char)) (patterns : List (List Char)) :
    List (List Char) :=
  match lines with
  | [] => []
  | ln :: rest =>
    if lineMatches patterns ln
    then ln :: scan_for_patterns rest patterns
    else scan_for_patterns rest patterns

/-! send_email (monitor.py lines 95-114).  Every transport failure
(connection, login, delivery, timeout) is inside the try/except, so the
function always returns; the model keeps the delivery outcome and the
operational log entry the handler writes. -/

inductive LogEntry where
  | emailSent : LogEntry
  | emailFailed : LogEntry
  | alertsWarning : LogEntry
  | noAlerts : LogEntry
  deriving DecidableEq

def send_email (transportOk : Bool) : Bool × List LogEntry :=
  if transportOk then (true, [LogEntry.emailSent])
  else (false, [LogEntry.emailFailed])

/-! Decimal rendering of integers, as Python str(int) produces for
json.dump.  A fuel argument keeps the recursion structural. -/

def digitChar (n : Nat) : Char :=
  if n = 0 then '0' else if n = 1 then '1' else if n = 2 then '2' else if n = 3 then '3'
  else if n = 4 then '4' else if n = 5 then '5' else if n = 6 then '6' else if n = 7 then '7'
  else if n = 8 then '8' else '9'

def natToDigitsGo : Nat → Nat → List Char
  | 0, _ => []
  | fuel + 1, n =>
    if n < 10 then [digitChar n]
    else natToDigitsGo fuel (n / 10) ++ [digitChar (n % 10)]

def natToDigits (n : Nat) : List Char := natToDigitsGo (n + 1) n

def intChars (i : Int) : List Char :=
  if i < 0 then '-' :: natToDigits i.natAbs else natToDigits i.toNat

def digitVal (c : Char) : Nat := c.toNat - 48

def digitsToNat (ds : List Char) : Nat := ds.foldl (fun a c => 10 * a + digitVal c) 0

def takeDigits : List Char → List Char × List Char
  | [] => ([], [])
  | c :: r =>
    if c.isDigit then
      match takeDigits r with
      | (ds, rest) => (c :: ds, rest)
    else ([], c :: r)

/-! Serialization, as json.dump writes it with the default separators:
a comma plus space between members, a colon plus space after a key. -/

def quoteChar : Char := Char.ofNat 34

def lbrace : Char := Char.ofNat 123

def rbrace : Char := Char.ofNat 125

def dumpLeaf : PyLeaf → List Char
  | .null => ['n', 'u', 'l', 'l']
  | .int i => intChars i
  | .str s => quoteChar :: s ++ [quoteChar]

def dumpInnerPairs : List (List Char × PyLeaf) → List Char
  | [] => []
  | [(k, v)] => quoteChar :: k ++ quoteChar :: ':' :: ' ' :: dumpLeaf v
  | (k, v) :: rest =>
      quoteChar :: k ++ quoteChar :: ':' :: ' ' :: dumpLeaf v ++ ',' :: ' ' :: dumpInnerPairs rest

def dumpVal : PyVal → List Char
  | .leaf l => dumpLeaf l
  | .obj kvs => lbrace :: dumpInnerPairs kvs ++ [rbrace]

def dumpTopPairs : List (List Char × PyVal) → List Char
  | [] => []
  | [(k, v)] => quoteChar :: k ++ quoteChar :: ':' :: ' ' :: dumpVal v
  | (k, v) :: rest =>
      quoteChar :: k ++ quoteChar :: ':' :: ' ' :: dumpVal v ++ ',' :: ' ' :: dumpTopPairs rest

def dumpDoc : PyDoc → List Char
  | .leafDoc l => dumpLeaf l
  | .dictDoc kvs => lbrace :: dumpTopPairs kvs ++ [rbrace]

/-! Validity of a value for serialization: strings carry no quote
character (so no escaping is needed; the program's fixed keys satisfy
this) and dictionary keys are distinct. -/

def strNoQuote (s : List Char) : Bool := s.all (fun c => !(c = quoteChar : Bool))

def leafValid : PyLeaf → Bool
  | .null => true
  | .int _ => true
  | .str s => strNoQuote s

def innerPairsValid : List (List Char × PyLeaf) → Bool
  | [] => true
  | (k, v) :: rest => strNoQuote k && leafValid v && keyNotIn k rest && innerPairsValid rest

def valValid : PyVal → Bool
  | .leaf l => leafValid l
  | .obj kvs => innerPairsValid kvs

def topPairsValid : List (List Char × PyVal) → Bool
  | [] => true
  | (k, v) :: rest => strNoQuote k && valValid v && keyNotIn k rest && topPairsValid rest

def docValid : PyDoc → Bool
  | .leafDoc l => leafValid l
  | .dictDoc kvs => topPairsValid kvs

/-! The parser modeling json.load on the same document shape.  Python
builds each object by inserting its members left to right, so a duplicate
key keeps its first position with its last value: the pairsToDict fold
reproduces that. -/

def isSpaceCh (c : Char) : Bool := c = ' ' || c = '\t' || c = '\n' || c = '\r'

def skipSpaces : List Char → List Char
  | [] => []
  | c :: r => if isSpaceCh c then skipSpaces r else c :: r

def parseStrBody : List Char → Option (List Char × List Char)
  | [] => none
  | c :: r =>
    if c = quoteChar then some ([], r)
    else (parseStrBody r).map (fun p => (c :: p.1, p.2))

def parseLeaf (input : List Char) : Option (PyLeaf × List Char) :=
  match skipSpaces input with
  | [] => none
  | c :: rest =>
    if c.isDigit then
      match takeDigits (c :: rest) with
      | (ds, r2) => some (.int (digitsToNat ds), r2)
    else if c = '-' then
      match takeDigits rest with
      | ([], _) => none
      | (ds, r2) => some (.int (-(digitsToNat ds : Int)), r2)
    else if c = 'n' then
      match rest with
      | 'u' :: 'l' :: 'l' :: r2 => some (.null, r2)
      | _ => none
    else if c = quoteChar then
      (parseStrBody rest).map (fun p => (.str p.1, p.2))
    else none

def pairsToDict {α : Type} (l : List (List Char × α)) : List (List Char × α) :=
  l.foldl (fun d kv => dictSet d kv.1 kv.2) []

def parseInnerPairs : Nat → List Char → Option (List (List Char × PyLeaf) × List Char)
  | 0, _ => none
  | fuel + 1, input =>
    match skipSpaces input with
    | [] => none
    | c :: r =>
      if c = quoteChar then
        match parseStrBody r with
        | none => none
        | some (k, r2) =>
          match skipSpaces r2 with
          | [] => none
          | c2 :: r3 =>
            if c2 = ':' then
              match parseLeaf r3 with
              | none => none
              | some (v, r4) =>
                match skipSpaces r4 with
                | [] => none
                | c3 :: r5 =>
                  if c3 = ',' then
                    (parseInnerPairs fuel r5).map (fun p => ((k, v) :: p.1, p.2))
                  else if c3 = rbrace then some ([(k, v)], r5)
                  else none
            else none
      else none

def parseValue (fuel : Nat) (input : List Char) : Option (PyVal × List Char) :=
  match skipSpaces input with
  | [] => none
  | c :: r =>
    if c = lbrace then
      match skipSpaces r with
      | [] => none
      | c2 :: r2 =>
        if c2 = rbrace then some (.obj [], r2)
        else (parseInnerPairs fuel (c2 :: r2)).map (fun p => (.obj (pairsToDict p.1), p.2))
    else (parseLeaf (c :: r)).map (fun p => (.leaf p.1, p.2))

def parseTopPairs : Nat → List Char → Option (List (List Char × PyVal) × List Char)
  | 0, _ => none
  | fuel + 1, input =>
    match skipSpaces input with
    | [] => none
    | c :: r =>
      if c = quoteChar then
        match parseStrBody r with
        | none => none
        | some (k, r2) =>
          match skipSpaces r2 with
          | [] => none
          | c2 :: r3 =>
            if c2 = ':' then
              match parseValue fuel r3 with
              | none => none
              | some (v, r4) =>
                match skipSpaces r4 with
                | [] => none
                | c3 :: r5 =>
                  if c3 = ',' then
                    (parseTopPairs fuel r5).map (fun p => ((k, v) :: p.1, p.2))
                  else if c3 = rbrace then some ([(k, v)], r5)
                  else none
            else none
      else none

def parseDoc (fuel : Nat) (input : List Char) : Option (PyDoc × List Char) :=
  match skipSpaces input with
  | [] => none
  | c :: r =>
    if c = lbrace then
      match skipSpaces r with
      | [] => none
      | c2 :: r2 =>
        if c2 = rbrace then some (.dictDoc [], r2)
        else (parseTopPairs fuel (c2 :: r2)).map (fun p => (.dictDoc (pairsToDict p.1), p.2))
    else (parseLeaf (c :: r)).map (fun p => (.leafDoc p.1, p.2))

def json_load (content : List Char) : Option PyDoc :=
  match parseDoc (content.length + 1) content with
  | none => none
  | some (v, rest) => if skipSpaces rest = [] then some v else none

/-! StateStore: load_last_state (monitor.py lines 120-127) and
save_last_state (lines 129-131).  save writes the serialized record
directly to the target path: open(path, "w") first truncates the file,
then the serializer appends; save_crash_contents lists the contents a
crash at each point of that write would leave behind (element i is the
file after i characters). -/

def load_last_state (file : Option (List Char)) : PyDoc :=
  match file with
  | none => .dictDoc []
  | some content =>
    match json_load content with
    | some v => v
    | none => .dictDoc []

def save_last_state (state : PyDoc) : List Char := dumpDoc state

def save_crash_contents (state : PyDoc) : List (List Char) :=
  (List.range ((dumpDoc state).length + 1)).map (fun i => (dumpDoc state).take i)

/-! The persisted run state record as the spec describes it: a log offset
and an optional last metrics sample.  runStateToDoc is the dictionary
run_once builds for it. -/

structure RunState where
  log_pos : Int
  last_snapshot : Option Snapshot
  deriving DecidableEq

def runStateToDoc (s : RunState) : PyDoc :=
  .dictDoc [(logPosKey, .leaf (.int s.log_pos)),
            (lastSnapshotKey,
              match s.last_snapshot with
              | none => .leaf .null
              | some m => snapshotToPyVal m)]

/-! run_once (monitor.py lines 133-171) and the interval loop of main
(lines 184-192).  The configuration keeps the parts run_once reads:
thresholds (absent entries behave as the empty dictionary default) and
the optional pattern list.  The environment of one cycle carries the
metrics outcome, the monitored log file content and the transport state.
The state file is passed as its content; run_once returns everything the
cycle produced, most importantly the exact content written to the state
file.  A Python exception the source does not catch is an error value:
a metrics failure, a state record that is not a dictionary (its .get
attribute access raises), or a seek with a bad stored offset. -/

def defaultPatterns : List (List Char) :=
  [['e', 'r', 'r', 'o', 'r'], ['f', 'a', 'i', 'l'],
   ['c', 'r', 'i', 't', 'i', 'c', 'a', 'l'],
   ['u', 'n', 'a', 'u', 't', 'h', 'o', 'r', 'i', 'z', 'e', 'd']]

def hitsMsg (hits : List (List Char)) : String :=
  "Found " ++ toString hits.length ++ " matching log lines"

structure Config where
  thresholds : List (List Char × Int)
  log_patterns : Option (List (List Char))
  deriving DecidableEq

structure Env where
  metricsResult : Except Unit Snapshot
  logFile : Option (List Char)
  smtpOk : Bool

inductive RunErr where
  | collection : RunErr
  | stateTypeError : RunErr
  | tailErr : TailErr → RunErr
  deriving DecidableEq

structure RunOut where
  savedContent : List Char
  finalState : List (List Char × PyVal)
  loadedState : List (List Char × PyVal)
  newPos : Int
  alerts : List String
  dispatched : Bool
  delivered : Bool
  opLog : List LogEntry

def run_once (cfg : Config) (env : Env) (stateFile : Option (List Char)) :
    Except RunErr RunOut :=
  let last_state := load_last_state stateFile
  match env.metricsResult with
  | .error _ => .error .collection
  | .ok snapshot =>
    match last_state with
    | .leafDoc _ => .error .stateTypeError
    | .dictDoc kvs =>
      let alerts := check_thresholds snapshot cfg.thresholds
      let last_pos := dictGetD kvs logPosKey (PyVal.leaf (.int 0))
      match tail_log env.logFile last_pos 200000 with
      | .error e => .error (.tailErr e)
      | .ok (lines, new_pos) =>
        let patterns := cfg.log_patterns.getD defaultPatterns
        let hits := scan_for_patterns lines patterns
        let alerts := if hits.isEmpty then alerts else alerts ++ [hitsMsg hits]
        let sendResult :=
          if alerts.isEmpty then none
          else some (send_email env.smtpOk)
        let final := dictSet (dictSet kvs logPosKey (PyVal.leaf (.int new_pos)))
          lastSnapshotKey (snapshotToPyVal snapshot)
        .ok ⟨save_last_state (.dictDoc final), final, kvs, new_pos, alerts,
             sendResult.isSome, ((sendResult.map Prod.fst).getD false),
             (match sendResult with
              | none => [LogEntry.noAlerts]
              | some p => p.2 ++ [LogEntry.alertsWarning])⟩

/-- The interval loop of main: run_once then sleep, repeated; only a
keyboard interrupt is caught (modeled by the environment list ending),
any other exception escapes the loop and ends the process.  The result
is the final state file content and the error that ended the loop, if
one did. -/
def main_loop (cfg : Config) (envs : List Env) (stateFile : Option (List Char)) :
    Option (List Char) × Option RunErr :=
  match envs with
  | [] => (stateFile, none)
  | e :: rest =>
    match run_once cfg e stateFile with
    | .ok out => main_loop cfg rest (some out.savedContent)
    | .error err => (stateFile, some err)

/-! Named pieces of the run_once computation (definitionally equal to the
corresponding let-bound expressions inside run_once; used to state its
evaluation lemma). -/

def cycleAlerts (cfg : Config) (snap : Snapshot) (lines : List (List Char)) : List String :=
  let hits := scan_for_patterns lines (cfg.log_patterns.getD defaultPatterns)
  if hits.isEmpty then check_thresholds snap cfg.thresholds
  else check_thresholds snap cfg.thresholds ++ [hitsMsg hits]

def cycleSend (cfg : Config) (snap : Snapshot) (lines : List (List Char)) (smtpOk : Bool) :
    Option (Bool × List LogEntry) :=
  if (cycleAlerts cfg snap lines).isEmpty then none else some (send_email smtpOk)

def cycleFinal (kvs : List (List Char × PyVal)) (snap : Snapshot) (new_pos : Int) :
    List (List Char × PyVal) :=
  dictSet (dictSet kvs logPosKey (PyVal.leaf (.int new_pos)))
    lastSnapshotKey (snapshotToPyVal snap)

/-! Concrete inputs used by the witnesses and counterexamples. -/

def cfgW : Config := ⟨[(cpuPercentKey, 90)], none⟩

def snapW : Snapshot := ⟨95, 10, 10, 3, 4⟩

def envW (transportOk : Bool) : Env := ⟨.ok snapW, none, transportOk⟩

def envQuiet : Env := ⟨.ok ⟨10, 10, 10, 0, 0⟩, none, true⟩

def envBadMetrics : Env := ⟨.error (), none, true⟩

def extraKey : List Char := ['n', 'o', 't', 'e']

def stateWithExtra : PyDoc :=
  .dictDoc [(extraKey, .leaf (.str ['h', 'i'])), (logPosKey, .leaf (.int 3))]

def stateOffsetHundred : PyDoc := .dictDoc [(logPosKey, .leaf (.int 100))]

/-- The offset a bounded read ends at: start plus characters read
(f.tell of monitor.py line 78). -/
def readEnd (content : List Char) (f : Nat) (cap : Nat) : Nat :=
  f + (readData content f cap).length

/-! Auxiliary measures and predicates used to state the parser lemmas. -/

def headNotDigitB : List Char → Bool
  | [] => true
  | c :: _ => !c.isDigit

def innerLen : PyVal → Nat
  | .leaf _ => 0
  | .obj kvs => kvs.length

def topPairsNeed : List (List Char × PyVal) → Nat
  | [] => 0
  | (_, v) :: rest => 1 + innerLen v + topPairsNeed rest

def docNeed : PyDoc → Nat
  | .leafDoc _ => 0
  | .dictDoc kvs => topPairsNeed kvs

def pairsKeysNodup {α : Type} : List (List Char × α) → Bool
  | [] => true
  | (k, _) :: rest => keyNotIn k rest && pairsKeysNodup rest

def keysFreshIn {α : Type} (kvs d : List (List Char × α)) : Bool :=
  kvs.all (fun kv => keyNotIn kv.1 d)

/-! Helper lemmas -/

theorem scan_eq_filter (lines patterns : List (List Char)) :
    scan_for_patterns lines patterns = lines.filter (fun ln => lineMatches patterns ln) := by
  induction lines with
  | nil => rfl
  | cons ln rest ih =>
      by_cases h : lineMatches patterns ln
      · simp [scan_for_patterns, List.filter_cons, h, ih]
      · simp [scan_for_patterns, List.filter_cons, h, ih]

theorem tail_log_nat (content : List Char) (f : Nat) (cap : Nat) :
    tail_log (some content) (.leaf (.int f)) cap
      = .ok (splitlines (readData content f cap), (readEnd content f cap : Int)) := by
  have h0 : ¬ ((f : Int) < 0) := by omega
  simp [tail_log, h0, readEnd, readData]

theorem readData_nil_of_ge (content : List Char) (f cap : Nat)
    (h : content.length ≤ f) : readData content f cap = [] := by
  unfold readData
  rw [List.drop_eq_nil_of_le h]
  simp

theorem splitlines_nil : splitlines [] = [] := rfl

/-- C8: scan returns exactly the lines containing at least one pattern as a
case-insensitive substring, each matched line exactly once (several matching
patterns do not duplicate it), in the original order; in particular the
pattern error matches the line ERROR: disk full. -/
theorem claim_C8_pattern_scan (lines patterns : List (List Char)) :
    scan_for_patterns lines patterns
      = lines.filter (fun ln => patterns.any (fun p => substrIn (lowerList p) (lowerList ln)))
    ∧ scan_for_patterns
        [['E', 'R', 'R', 'O', 'R', ':', ' ', 'd', 'i', 's', 'k', ' ', 'f', 'u', 'l', 'l']]
        [['e', 'r', 'r', 'o', 'r']]
      = [['E', 'R', 'R', 'O', 'R', ':', ' ', 'd', 'i', 's', 'k', ' ', 'f', 'u', 'l', 'l']] :=
  ⟨scan_eq_filter lines patterns, by decide⟩

/-- C6: threshold evaluation emits a breach message for a metric exactly when
its value is at least its limit (equality breaches), the limit defaulting
to 90 for unconfigured metrics, in the fixed order cpu, mem, disk, each
message carrying the metric name and the observed value; the result is empty
exactly when no metric breaches. -/
theorem claim_C6_thresholds (s : Snapshot) (t : List (List Char × Int)) :
    check_thresholds s t
      = ((if s.cpu_percent ≥ dictGetD t cpuPercentKey 90 then [cpuMsg s.cpu_percent] else [])
        ++ (if s.mem_percent ≥ dictGetD t memPercentKey 90 then [memMsg s.mem_percent] else [])
        ++ (if s.disk_percent ≥ dictGetD t diskPercentKey 90 then [diskMsg s.disk_percent] else []))
    ∧ (check_thresholds s t = []
        ↔ s.cpu_percent < dictGetD t cpuPercentKey 90
          ∧ s.mem_percent < dictGetD t memPercentKey 90
          ∧ s.disk_percent < dictGetD t diskPercentKey 90) := by
  constructor
  · unfold check_thresholds
    split_ifs <;> simp
  · unfold check_thresholds
    split_ifs <;> simp_all

theorem tail_log_empty_read (c : List Char) (E cap : Nat) (hE : c.length ≤ E) :
    tail_log (some c) (.leaf (.int E)) cap = .ok ([], (E : Int)) := by
  have h := tail_log_nat c E cap
  rw [readData_nil_of_ge c E cap hE] at h
  simpa [readEnd, readData_nil_of_ge c E cap hE] using h

/-- C3 counterexample: a stored offset larger than the file (here offset 10
against a two-character file) does not reset to byte 0: the code returns no
lines and keeps the stale offset 10, unlike the fresh read from 0 the claim
describes. -/
theorem claim_C3_cex :
    tail_log (some ['a', 'b']) (.leaf (.int 10)) 200000 = .ok ([], 10)
    ∧ tail_log (some ['a', 'b']) (.leaf (.int 0)) 200000 = .ok ([['a', 'b']], 2)
    ∧ (([], (10 : Int)) : List (List Char) × Int) ≠ (([['a', 'b']], 2) : List (List Char) × Int) :=
  ⟨rfl, rfl, by decide⟩

/-- C3 (amended): with an existing file and a stored offset beyond the file
end, tail_log raises no error but returns the empty line sequence together
with the stale offset unchanged; nothing is re-read from byte 0. -/
theorem claim_C3_stale_offset (content : List Char) (i : Int) (cap : Nat)
    (h0 : 0 ≤ i) (h1 : (content.length : Int) < i) :
    tail_log (some content) (.leaf (.int i)) cap = .ok ([], i) := by
  have hnat : content.length ≤ i.toNat := by omega
  have hi : ((i.toNat : Nat) : Int) = i := by omega
  have h := tail_log_nat content i.toNat cap
  rw [readData_nil_of_ge content i.toNat cap hnat] at h
  rw [hi] at h
  simpa [splitlines_nil, readEnd, readData_nil_of_ge content i.toNat cap hnat, hi] using h

theorem claim_C3_stale_offset_witness :
    tail_log (some ['a', 'b']) (.leaf (.int 5)) 7 = .ok ([], 5) :=
  claim_C3_stale_offset ['a', 'b'] 5 7 (by decide) (by decide)

/-- C7 counterexample: under the byte cap (here cap 1 against a two-character
file) a second read at the returned offset with no intervening writes is not
empty: the first read stopped at the cap, so the claim's universally
quantified losslessness and idempotence fail. -/
theorem claim_C7_cex :
    tail_log (some ['a', 'b']) (.leaf (.int 0)) 1 = .ok ([['a']], 1)
    ∧ tail_log (some ['a', 'b']) (.leaf (.int 1)) 1 = .ok ([['b']], 2)
    ∧ ([['b']] : List (List Char)) ≠ [] :=
  ⟨rfl, rfl, by decide⟩

/-- C7 (amended): for a file that only grows, two successive reads where the
second starts at the offset the first returned are contiguous: the
concatenation of the raw chunks read is exactly the slice of the final
content starting at the first offset, with no overlap and no skip.  When the
unread part fits in the first cap, a repeat read with no intervening writes
returns the empty sequence at the same offset; when the remainder also fits
in the second cap, the two chunks together reconstruct the whole unread
content exactly once. -/
theorem claim_C7_two_reads (c0 app : List Char) (f0 cap1 cap2 : Nat)
    (h0 : f0 ≤ c0.length) :
    tail_log (some c0) (.leaf (.int f0)) cap1
      = .ok (splitlines (readData c0 f0 cap1), (readEnd c0 f0 cap1 : Int))
    ∧ tail_log (some (c0 ++ app)) (.leaf (.int (readEnd c0 f0 cap1))) cap2
      = .ok (splitlines (readData (c0 ++ app) (readEnd c0 f0 cap1) cap2),
             (readEnd (c0 ++ app) (readEnd c0 f0 cap1) cap2 : Int))
    ∧ readData c0 f0 cap1 ++ readData (c0 ++ app) (readEnd c0 f0 cap1) cap2
        = ((c0 ++ app).drop f0).take
            ((readData c0 f0 cap1).length
              + (readData (c0 ++ app) (readEnd c0 f0 cap1) cap2).length)
    ∧ (c0.length ≤ f0 + cap1 →
        tail_log (some c0) (.leaf (.int (readEnd c0 f0 cap1))) cap2
          = .ok ([], (readEnd c0 f0 cap1 : Int)))
    ∧ ((c0 ++ app).length ≤ readEnd c0 f0 cap1 + cap2 →
        readData c0 f0 cap1 ++ readData (c0 ++ app) (readEnd c0 f0 cap1) cap2
          = (c0 ++ app).drop f0) := by
  have hn1 : (readData c0 f0 cap1).length = min cap1 (c0.length - f0) := by
    simp [readData]
  have hend : readEnd c0 f0 cap1 = f0 + min cap1 (c0.length - f0) := by
    simp [readEnd, hn1]
  have hdrop : (c0 ++ app).drop f0 = c0.drop f0 ++ app :=
    List.drop_append_of_le_length h0
  have hn1le : (readData c0 f0 cap1).length ≤ (c0.drop f0).length := by
    simp only [List.length_drop, hn1]
    omega
  have hd1 : ((c0 ++ app).drop f0).take (readData c0 f0 cap1).length
      = readData c0 f0 cap1 := by
    rw [hdrop, List.take_append_of_le_length hn1le]
    unfold readData
    rw [List.take_eq_take]
    simp only [List.length_take, List.length_drop, hn1]
    omega
  have hd2 : readData (c0 ++ app) (readEnd c0 f0 cap1) cap2
      = (((c0 ++ app).drop f0).drop (readData c0 f0 cap1).length).take cap2 := by
    unfold readData readEnd
    rw [List.drop_drop]
    rfl
  have hn2 : (readData (c0 ++ app) (readEnd c0 f0 cap1) cap2).length
      = min cap2 ((c0 ++ app).length - readEnd c0 f0 cap1) := by
    simp [readData]
  have hd2len : (((c0 ++ app).drop f0).drop (readData c0 f0 cap1).length).take
        (readData (c0 ++ app) (readEnd c0 f0 cap1) cap2).length
      = readData (c0 ++ app) (readEnd c0 f0 cap1) cap2 := by
    rw [hd2, List.take_eq_take]
    simp only [List.length_take, List.length_drop, List.length_append]
    omega
  have hcontig : readData c0 f0 cap1 ++ readData (c0 ++ app) (readEnd c0 f0 cap1) cap2
      = ((c0 ++ app).drop f0).take
          ((readData c0 f0 cap1).length
            + (readData (c0 ++ app) (readEnd c0 f0 cap1) cap2).length) := by
    rw [List.take_add, hd1, hd2len]
  refine ⟨tail_log_nat c0 f0 cap1, tail_log_nat (c0 ++ app) (readEnd c0 f0 cap1) cap2,
    hcontig, ?_, ?_⟩
  · intro hfit
    apply tail_log_empty_read
    rw [hend]
    omega
  · intro hfit
    rw [hcontig]
    apply List.take_of_length_le
    rw [hend] at hfit
    simp only [List.length_append] at hfit
    simp only [List.length_drop, List.length_append]
    rw [hn1, hn2, hend]
    simp only [List.length_append]
    omega

theorem claim_C7_two_reads_witness :
    readData ['a', 'b'] 1 10 ++ readData (['a', 'b'] ++ ['c']) (readEnd ['a', 'b'] 1 10) 10
      = (['a', 'b'] ++ ['c']).drop 1
    ∧ tail_log (some ['a', 'b']) (.leaf (.int (readEnd ['a', 'b'] 1 10))) 10
        = .ok ([], (readEnd ['a', 'b'] 1 10 : Int)) := by
  have h := claim_C7_two_reads ['a', 'b'] ['c'] 1 10 10 (by decide)
  exact ⟨h.2.2.2.2 (by decide), h.2.2.2.1 (by decide)⟩

/-! Decimal digits: rendering and parsing agree. -/

theorem digitChar_spec : ∀ d : Nat, d < 10 →
    digitVal (digitChar d) = d ∧ (digitChar d).isDigit = true := by decide

theorem digitsToNat_append1 (ds : List Char) (c : Char) :
    digitsToNat (ds ++ [c]) = 10 * digitsToNat ds + digitVal c := by
  unfold digitsToNat
  rw [List.foldl_append]
  rfl

theorem natToDigitsGo_spec : ∀ fuel n : Nat, n < fuel →
    natToDigitsGo fuel n ≠ []
    ∧ (∀ c ∈ natToDigitsGo fuel n, c.isDigit = true)
    ∧ digitsToNat (natToDigitsGo fuel n) = n := by
  intro fuel
  induction fuel with
  | zero => intro n h; omega
  | succ f ih =>
    intro n h
    unfold natToDigitsGo
    by_cases h10 : n < 10
    · rw [if_pos h10]
      refine ⟨by simp, ?_, ?_⟩
      · intro c hc
        simp only [List.mem_singleton] at hc
        subst hc
        exact (digitChar_spec n h10).2
      · have h1 : digitsToNat [digitChar n] = digitVal (digitChar n) := by
          simp [digitsToNat]
        rw [h1, (digitChar_spec n h10).1]
    · rw [if_neg h10]
      have hrec : n / 10 < f := by omega
      obtain ⟨hne, hdig, hval⟩ := ih (n / 10) hrec
      refine ⟨by simp [hne], ?_, ?_⟩
      · intro c hc
        rw [List.mem_append] at hc
        rcases hc with hc | hc
        · exact hdig c hc
        · simp only [List.mem_singleton] at hc
          subst hc
          exact (digitChar_spec (n % 10) (by omega)).2
      · rw [digitsToNat_append1, hval, (digitChar_spec (n % 10) (by omega)).1]
        omega

theorem natToDigits_ne_nil (n : Nat) : natToDigits n ≠ [] :=
  (natToDigitsGo_spec (n + 1) n (by omega)).1

theorem natToDigits_digits (n : Nat) : ∀ c ∈ natToDigits n, c.isDigit = true :=
  (natToDigitsGo_spec (n + 1) n (by omega)).2.1

theorem digitsToNat_natToDigits (n : Nat) : digitsToNat (natToDigits n) = n :=
  (natToDigitsGo_spec (n + 1) n (by omega)).2.2

theorem takeDigits_split (ds rest : List Char) (hd : ∀ c ∈ ds, c.isDigit = true)
    (hr : headNotDigitB rest = true) : takeDigits (ds ++ rest) = (ds, rest) := by
  induction ds with
  | nil =>
    simp only [List.nil_append]
    cases rest with
    | nil => rfl
    | cons c t =>
      have hc : c.isDigit = false := by simpa [headNotDigitB] using hr
      simp [takeDigits, hc]
  | cons d ds ih =>
    have hdd : d.isDigit = true := hd d (by simp)
    have hrest : ∀ c ∈ ds, c.isDigit = true := fun c hc => hd c (by simp [hc])
    simp [takeDigits, hdd, ih hrest]

/-! Character class facts used while tracing the parser. -/

theorem not_space_of_digit (c : Char) (h : c.isDigit = true) : isSpaceCh c = false := by
  by_cases h1 : c = ' '
  · subst h1; exact absurd h (by decide)
  by_cases h2 : c = '\t'
  · subst h2; exact absurd h (by decide)
  by_cases h3 : c = '\n'
  · subst h3; exact absurd h (by decide)
  by_cases h4 : c = '\r'
  · subst h4; exact absurd h (by decide)
  simp [isSpaceCh, h1, h2, h3, h4]

theorem digit_ne_lbrace (c : Char) (h : c.isDigit = true) : (c = lbrace) = False := by
  simp only [eq_iff_iff, iff_false]
  intro hc
  subst hc
  exact absurd h (by decide)

/-! skipSpaces facts. -/

theorem skipSpaces_nonspace (c : Char) (r : List Char) (h : isSpaceCh c = false) :
    skipSpaces (c :: r) = c :: r := by
  simp [skipSpaces, h]

theorem skipSpaces_space_cons (r : List Char) : skipSpaces (' ' :: r) = skipSpaces r := by
  simp [skipSpaces, isSpaceCh]

/-! String body parsing. -/

theorem strNoQuote_cons (c : Char) (t : List Char) :
    strNoQuote (c :: t) = (!(c = quoteChar : Bool) && strNoQuote t) := by
  simp [strNoQuote]

theorem parseStrBody_complete (s rest : List Char) (h : strNoQuote s = true) :
    parseStrBody (s ++ quoteChar :: rest) = some (s, rest) := by
  induction s with
  | nil => simp [parseStrBody]
  | cons c t ih =>
    rw [strNoQuote_cons] at h
    simp only [Bool.and_eq_true, Bool.not_eq_true] at h
    have hc : ¬ (c = quoteChar) := by
      intro hcc
      simp [hcc] at h
    simp [parseStrBody, hc, ih h.2]

theorem parseStrBody_noQuote (s : List Char) (h : strNoQuote s = true) :
    parseStrBody s = none := by
  induction s with
  | nil => rfl
  | cons c t ih =>
    rw [strNoQuote_cons] at h
    simp only [Bool.and_eq_true, Bool.not_eq_true] at h
    have hc : ¬ (c = quoteChar) := by
      intro hcc
      simp [hcc] at h
    simp [parseStrBody, hc, ih h.2]

/-! parseLeaf: evaluation by head character, completeness on rendered
scalars, and failure on every proper prefix (a cut-off integer parses as
a shorter integer consuming the whole input; everything else fails). -/

theorem parseLeaf_nil : parseLeaf [] = none := rfl

theorem parseLeaf_minus (r : List Char) : parseLeaf ('-' :: r)
    = (match takeDigits r with
       | ([], _) => none
       | (ds, r2) => some (.int (-(digitsToNat ds : Int)), r2)) := rfl

theorem parseLeaf_quote (r : List Char) : parseLeaf (quoteChar :: r)
    = (parseStrBody r).map (fun p => (.str p.1, p.2)) := rfl

theorem parseLeaf_digit (c : Char) (r : List Char) (h : c.isDigit = true) :
    parseLeaf (c :: r)
      = (match takeDigits (c :: r) with
         | (ds, r2) => some (.int (digitsToNat ds), r2)) := by
  unfold parseLeaf
  rw [skipSpaces_nonspace c r (not_space_of_digit c h)]
  simp [h]

theorem natToDigits_cons (n : Nat) : ∃ c t, natToDigits n = c :: t := by
  cases hnd : natToDigits n with
  | nil => exact absurd hnd (natToDigits_ne_nil n)
  | cons c t => exact ⟨c, t, rfl⟩

theorem parseLeaf_complete (l : PyLeaf) (rest : List Char) (hv : leafValid l = true)
    (hr : headNotDigitB rest = true) :
    parseLeaf (dumpLeaf l ++ rest) = some (l, rest) := by
  cases l with
  | null => rfl
  | int i =>
    show parseLeaf (intChars i ++ rest) = some (PyLeaf.int i, rest)
    unfold intChars
    by_cases hneg : i < 0
    · rw [if_pos hneg, List.cons_append, parseLeaf_minus]
      rw [takeDigits_split (natToDigits i.natAbs) rest (natToDigits_digits _) hr]
      obtain ⟨c, t, hct⟩ := natToDigits_cons i.natAbs
      rw [hct]
      show some (PyLeaf.int (-(digitsToNat (c :: t) : Int)), rest)
        = some (PyLeaf.int i, rest)
      rw [← hct, digitsToNat_natToDigits]
      have hi : -((i.natAbs : Nat) : Int) = i := by omega
      rw [hi]
    · rw [if_neg hneg]
      obtain ⟨c, t, hct⟩ := natToDigits_cons i.toNat
      rw [hct, List.cons_append,
        parseLeaf_digit c (t ++ rest) (natToDigits_digits i.toNat c (by rw [hct]; simp)),
        ← List.cons_append, ← hct]
      rw [takeDigits_split (natToDigits i.toNat) rest (natToDigits_digits _) hr]
      show some (PyLeaf.int ((digitsToNat (natToDigits i.toNat) : Nat) : Int), rest)
        = some (PyLeaf.int i, rest)
      rw [digitsToNat_natToDigits]
      have hi : ((i.toNat : Nat) : Int) = i := by omega
      rw [hi]
  | str s2 =>
    have hmv : dumpLeaf (.str s2) ++ rest = quoteChar :: (s2 ++ quoteChar :: rest) := by
      simp [dumpLeaf]
    rw [hmv, parseLeaf_quote,
      parseStrBody_complete s2 rest (by simpa [leafValid] using hv)]
    rfl

theorem strNoQuote_take (s : List Char) (n : Nat) (h : strNoQuote s = true) :
    strNoQuote (s.take n) = true := by
  rw [strNoQuote, List.all_eq_true] at h ⊢
  intro c hc
  exact h c (List.mem_of_mem_take hc)

theorem parseLeaf_cutoff (l : PyLeaf) (p q : List Char) (hv : leafValid l = true)
    (heq : dumpLeaf l = p ++ q) (hq : q ≠ []) :
    parseLeaf p = none ∨ ∃ m : Int, parseLeaf p = some (.int m, []) := by
  cases l with
  | null =>
    left
    rcases p with _ | ⟨a, _ | ⟨b, _ | ⟨c, _ | ⟨d, t⟩⟩⟩⟩
    · rfl
    · simp only [dumpLeaf, List.cons_append, List.nil_append, List.cons.injEq] at heq
      obtain ⟨ha, _⟩ := heq
      subst ha
      rfl
    · simp only [dumpLeaf, List.cons_append, List.nil_append, List.cons.injEq] at heq
      obtain ⟨ha, hb, _⟩ := heq
      subst ha; subst hb
      rfl
    · simp only [dumpLeaf, List.cons_append, List.nil_append, List.cons.injEq] at heq
      obtain ⟨ha, hb, hc, _⟩ := heq
      subst ha; subst hb; subst hc
      rfl
    · exfalso
      simp only [dumpLeaf, List.cons_append, List.nil_append, List.cons.injEq] at heq
      obtain ⟨_, _, _, _, ht⟩ := heq
      cases q with
      | nil => exact hq rfl
      | cons x y =>
        have := congrArg List.length ht
        simp at this
        omega
  | int i =>
    rw [show dumpLeaf (.int i) = intChars i from rfl] at heq
    unfold intChars at heq
    by_cases hneg : i < 0
    · rw [if_pos hneg] at heq
      cases p with
      | nil => left; rfl
      | cons a t =>
        rw [List.cons_append] at heq
        injection heq with h1 h2
        subst h1
        have ht : ∀ c ∈ t, c.isDigit = true := fun c hc =>
          natToDigits_digits i.natAbs c (by rw [h2]; exact List.mem_append_left q hc)
        cases t with
        | nil => left; rfl
        | cons b u =>
          right
          refine ⟨-(digitsToNat (b :: u) : Int), ?_⟩
          rw [parseLeaf_minus]
          have htd : takeDigits (b :: u) = (b :: u, []) := by
            have := takeDigits_split (b :: u) [] ht rfl
            simpa using this
          rw [htd]
    · rw [if_neg hneg] at heq
      cases p with
      | nil => left; rfl
      | cons a t =>
        right
        have hall : ∀ c ∈ a :: t, c.isDigit = true := fun c hc =>
          natToDigits_digits i.toNat c (by rw [heq]; exact List.mem_append_left q hc)
        refine ⟨(digitsToNat (a :: t) : Int), ?_⟩
        rw [parseLeaf_digit a t (hall a (by simp))]
        have htd : takeDigits (a :: t) = (a :: t, []) := by
          have := takeDigits_split (a :: t) [] hall rfl
          simpa using this
      

        rw [htd]
  | str s2 =>
    left
    cases p with
    | nil => rfl
    | cons a t =>
      have heq2 : quoteChar :: (s2 ++ [quoteChar]) = a :: (t ++ q) := by
        simpa [dumpLeaf] using heq
      injection heq2 with h1 h2
      subst h1
      rw [parseLeaf_quote]
      have hlen : t.length ≤ s2.length := by
        have := congrArg List.length h2
        simp only [List.length_append, List.length_cons, List.length_nil] at this
        cases q with
        | nil => exact absurd rfl hq
        | cons x y =>
          simp only [List.length_cons] at this
          omega
      have ht : t = s2.take t.length := by
        have h3 : (s2 ++ [quoteChar]).take t.length = (t ++ q).take t.length := by rw [h2]
        rw [List.take_append_of_le_length hlen,
          List.take_append_of_le_length (le_refl t.length), List.take_length] at h3
        exact h3.symm
      have hnq : strNoQuote t = true := by
        rw [ht]
        exact strNoQuote_take s2 t.length (by simpa [leafValid] using hv)
      rw [parseStrBody_noQuote t hnq]
      rfl

/-! Evaluation lemmas for the pair parsers. -/

theorem parseLeaf_space (x : List Char) : parseLeaf (' ' :: x) = parseLeaf x := by
  unfold parseLeaf
  rw [skipSpaces_space_cons]

theorem parseInnerPairs_nil_input (fuel : Nat) : parseInnerPairs fuel [] = none := by
  cases fuel <;> rfl

theorem parseInnerPairs_space (fuel : Nat) (x : List Char) :
    parseInnerPairs fuel (' ' :: x) = parseInnerPairs fuel x := by
  cases fuel with
  | zero => rfl
  | succ f =>
    unfold parseInnerPairs
    rw [skipSpaces_space_cons]

theorem parseInnerPairs_quote (f : Nat) (r : List Char) :
    parseInnerPairs (f + 1) (quoteChar :: r)
      = (match parseStrBody r with
         | none => none
         | some (k, r2) =>
           match skipSpaces r2 with
           | [] => none
           | c2 :: r3 =>
             if c2 = ':' then
               match parseLeaf r3 with
               | none => none
               | some (v, r4) =>
                 match skipSpaces r4 with
                 | [] => none
                 | c3 :: r5 =>
                   if c3 = ',' then
                     (parseInnerPairs f r5).map (fun p => ((k, v) :: p.1, p.2))
                   else if c3 = rbrace then some ([(k, v)], r5)
                   else none
             else none) := rfl

theorem innerPairsValid_cons (k : List Char) (v : PyLeaf) (rest : List (List Char × PyLeaf)) :
    innerPairsValid ((k, v) :: rest)
      = (strNoQuote k && leafValid v && keyNotIn k rest && innerPairsValid rest) := rfl

theorem parseInnerPairs_step (f : Nat) (k : List Char) (v : PyLeaf)
    (r2 : List (List Char × PyLeaf)) (rest : List Char)
    (hk : strNoQuote k = true) (hv : leafValid v = true) :
    parseInnerPairs (f + 1) (dumpInnerPairs ((k, v) :: r2) ++ rbrace :: rest)
      = (match r2 with
         | [] => some ([(k, v)], rest)
         | _ :: _ => (parseInnerPairs f (dumpInnerPairs r2 ++ rbrace :: rest)).map
             (fun p => ((k, v) :: p.1, p.2))) := by
  cases r2 with
  | nil =>
    have hinput : dumpInnerPairs [(k, v)] ++ rbrace :: rest
        = quoteChar :: (k ++ quoteChar :: ':' :: ' ' :: (dumpLeaf v ++ rbrace :: rest)) := by
      simp [dumpInnerPairs]
    rw [hinput, parseInnerPairs_quote, parseStrBody_complete k _ hk]
    simp only []
    rw [skipSpaces_nonspace ':' _ (by decide)]
    simp only [if_pos rfl]
    rw [parseLeaf_space, parseLeaf_complete v _ hv (by rfl)]
    simp only []
    rw [skipSpaces_nonspace rbrace _ (by decide)]
    have hc1 : (rbrace = ',') = False := by decide
    simp [hc1]
  | cons x xs =>
    have hinput : dumpInnerPairs ((k, v) :: x :: xs) ++ rbrace :: rest
        = quoteChar :: (k ++ quoteChar :: ':' :: ' '
            :: (dumpLeaf v ++ ',' :: ' ' :: (dumpInnerPairs (x :: xs) ++ rbrace :: rest))) := by
      simp [dumpInnerPairs]
    rw [hinput, parseInnerPairs_quote, parseStrBody_complete k _ hk]
    simp only []
    rw [skipSpaces_nonspace ':' _ (by decide)]
    simp only [if_pos rfl]
    rw [parseLeaf_space, parseLeaf_complete v _ hv (by rfl)]
    simp only []
    rw [skipSpaces_nonspace ',' _ (by decide)]
    simp only [if_pos rfl]
    rw [parseInnerPairs_space]
    simp

theorem parseInnerPairs_complete (kvs : List (List Char × PyLeaf)) :
    ∀ (fuel : Nat) (rest : List Char), kvs ≠ [] → innerPairsValid kvs = true →
    kvs.length ≤ fuel →
    parseInnerPairs fuel (dumpInnerPairs kvs ++ rbrace :: rest) = some (kvs, rest) := by
  induction kvs with
  | nil => intro fuel rest h; exact absurd rfl h
  | cons kv r2 ih =>
    intro fuel rest _ hv hf
    obtain ⟨k, v⟩ := kv
    rw [innerPairsValid_cons] at hv
    simp only [Bool.and_eq_true] at hv
    obtain ⟨⟨⟨hk, hlv⟩, _⟩, hrest⟩ := hv
    obtain ⟨f, rfl⟩ : ∃ f, fuel = f + 1 := ⟨fuel - 1, by simp at hf; omega⟩
    rw [parseInnerPairs_step f k v r2 rest hk hlv]
    cases r2 with
    | nil => rfl
    | cons x xs =>
      rw [ih f rest (by simp) hrest (by simp at hf ⊢; omega)]
      rfl

theorem parseInnerPairs_cn (kvs : List (List Char × PyLeaf)) :
    ∀ (fuel : Nat) (rest : List Char), kvs ≠ [] → innerPairsValid kvs = true →
    parseInnerPairs fuel (dumpInnerPairs kvs ++ rbrace :: rest) = some (kvs, rest)
    ∨ parseInnerPairs fuel (dumpInnerPairs kvs ++ rbrace :: rest) = none := by
  induction kvs with
  | nil => intro fuel rest h; exact absurd rfl h
  | cons kv r2 ih =>
    intro fuel rest _ hv
    obtain ⟨k, v⟩ := kv
    rw [innerPairsValid_cons] at hv
    simp only [Bool.and_eq_true] at hv
    obtain ⟨⟨⟨hk, hlv⟩, _⟩, hrest⟩ := hv
    cases fuel with
    | zero => right; rfl
    | succ f =>
      rw [parseInnerPairs_step f k v r2 rest hk hlv]
      cases r2 with
      | nil => left; rfl
      | cons x xs =>
        rcases ih f rest (by simp) hrest with h | h
        · left; rw [h]; rfl
        · right; rw [h]; rfl

/-! Dictionary lemmas: rebuilding a parsed object by successive insertion
returns exactly the parsed pair list when its keys are distinct. -/

theorem dictSet_fresh {α : Type} (d : List (List Char × α)) (key : List Char) (v : α)
    (h : keyNotIn key d = true) : dictSet d key v = d ++ [(key, v)] := by
  induction d with
  | nil => rfl
  | cons kw rest ih =>
    obtain ⟨k, w⟩ := kw
    simp only [keyNotIn, Bool.and_eq_true, Bool.not_eq_true] at h
    have hk : ¬ (k = key) := by
      intro hh
      simp [hh] at h
    simp [dictSet, hk, ih h.2]

theorem keyNotIn_of_mem {α : Type} (key : List Char) (d : List (List Char × α))
    (h : keyNotIn key d = true) : ∀ kv ∈ d, kv.1 ≠ key := by
  induction d with
  | nil => intro kv hkv; cases hkv
  | cons kw rest ih =>
    intro kv hkv
    simp only [keyNotIn, Bool.and_eq_true, Bool.not_eq_true] at h
    rcases List.mem_cons.1 hkv with hkv | hkv
    · subst hkv
      intro hh
      simp [hh] at h
    · exact ih h.2 kv hkv

theorem keyNotIn_append {α : Type} (key : List Char) (d e : List (List Char × α)) :
    keyNotIn key (d ++ e) = (keyNotIn key d && keyNotIn key e) := by
  induction d with
  | nil => simp [keyNotIn]
  | cons kw rest ih =>
    obtain ⟨k, w⟩ := kw
    simp [keyNotIn, ih, Bool.and_assoc]

theorem foldl_dictSet_fresh {α : Type} (kvs : List (List Char × α)) :
    ∀ d : List (List Char × α), keysFreshIn kvs d = true → pairsKeysNodup kvs = true →
    List.foldl (fun d kv => dictSet d kv.1 kv.2) d kvs = d ++ kvs := by
  induction kvs with
  | nil => intro d _ _; simp
  | cons kv rest ih =>
    intro d hfresh hnodup
    obtain ⟨k, v⟩ := kv
    simp only [keysFreshIn, List.all_cons, Bool.and_eq_true] at hfresh
    simp only [pairsKeysNodup, Bool.and_eq_true] at hnodup
    simp only [List.foldl_cons]
    rw [dictSet_fresh d k v hfresh.1]
    rw [ih (d ++ [(k, v)]) ?_ hnodup.2]
    · simp
    · rw [keysFreshIn, List.all_eq_true]
      intro kv2 hkv2
      rw [keyNotIn_append]
      simp only [Bool.and_eq_true]
      constructor
      · have h2 := hfresh.2
        rw [List.all_eq_true] at h2
        exact h2 kv2 hkv2
      · have hne : kv2.1 ≠ k := keyNotIn_of_mem k rest hnodup.1 kv2 hkv2
        have hne2 : ¬ (k = kv2.1) := fun hh => hne hh.symm
        simp [keyNotIn, hne2]

theorem pairsToDict_id {α : Type} (kvs : List (List Char × α))
    (h : pairsKeysNodup kvs = true) : pairsToDict kvs = kvs := by
  unfold pairsToDict
  rw [foldl_dictSet_fresh kvs [] ?_ h]
  · simp
  · rw [keysFreshIn, List.all_eq_true]
    intro kv _
    rfl

theorem innerPairsValid_nodup (kvs : List (List Char × PyLeaf))
    (h : innerPairsValid kvs = true) : pairsKeysNodup kvs = true := by
  induction kvs with
  | nil => rfl
  | cons kv rest ih =>
    obtain ⟨k, v⟩ := kv
    rw [innerPairsValid_cons] at h
    simp only [Bool.and_eq_true] at h
    simp only [pairsKeysNodup, Bool.and_eq_true]
    exact ⟨h.1.2, ih h.2⟩

theorem topPairsValid_cons (k : List Char) (v : PyVal) (rest : List (List Char × PyVal)) :
    topPairsValid ((k, v) :: rest)
      = (strNoQuote k && valValid v && keyNotIn k rest && topPairsValid rest) := rfl

theorem topPairsValid_nodup (kvs : List (List Char × PyVal))
    (h : topPairsValid kvs = true) : pairsKeysNodup kvs = true := by
  induction kvs with
  | nil => rfl
  | cons kv rest ih =>
    obtain ⟨k, v⟩ := kv
    rw [topPairsValid_cons] at h
    simp only [Bool.and_eq_true] at h
    simp only [pairsKeysNodup, Bool.and_eq_true]
    exact ⟨h.1.2, ih h.2⟩

/-! parseValue lemmas. -/

theorem dumpLeaf_head (l : PyLeaf) :
    ∃ c t, dumpLeaf l = c :: t ∧ isSpaceCh c = false ∧ (c = lbrace) = False := by
  cases l with
  | null => exact ⟨'n', _, rfl, by decide, by decide⟩
  | int i =>
    show ∃ c t, intChars i = c :: t ∧ _
    unfold intChars
    by_cases hneg : i < 0
    · rw [if_pos hneg]
      exact ⟨'-', _, rfl, by decide, by decide⟩
    · rw [if_neg hneg]
      obtain ⟨c, t, hct⟩ := natToDigits_cons i.toNat
      have hd : c.isDigit = true := natToDigits_digits i.toNat c (by rw [hct]; simp)
      exact ⟨c, t, hct, not_space_of_digit c hd, digit_ne_lbrace c hd⟩
  | str s2 => exact ⟨quoteChar, _, rfl, by decide, by decide⟩

theorem parseValue_nonbrace (fuel : Nat) (c : Char) (r : List Char)
    (hs : isSpaceCh c = false) (hb : (c = lbrace) = False) :
    parseValue fuel (c :: r) = (parseLeaf (c :: r)).map (fun p => (.leaf p.1, p.2)) := by
  unfold parseValue
  rw [skipSpaces_nonspace c r hs]
  simp [hb]

theorem parseValue_lbrace (fuel : Nat) (r : List Char) :
    parseValue fuel (lbrace :: r)
      = (match skipSpaces r with
         | [] => none
         | c2 :: r2 =>
           if c2 = rbrace then some (.obj [], r2)
           else (parseInnerPairs fuel (c2 :: r2)).map
             (fun p => (.obj (pairsToDict p.1), p.2))) := by
  unfold parseValue
  rw [skipSpaces_nonspace lbrace r (by decide)]
  simp

theorem parseValue_complete (fuel : Nat) (v : PyVal) (rest : List Char)
    (hv : valValid v = true) (hr : headNotDigitB rest = true) (hf : innerLen v ≤ fuel) :
    parseValue fuel (dumpVal v ++ rest) = some (v, rest) := by
  cases v with
  | leaf l =>
    obtain ⟨c, t, hct, hs, hb⟩ := dumpLeaf_head l
    show parseValue fuel (dumpLeaf l ++ rest) = _
    rw [hct, List.cons_append, parseValue_nonbrace fuel c (t ++ rest) hs hb,
      ← List.cons_append, ← hct,
      parseLeaf_complete l rest (by simpa [valValid] using hv) hr]
    rfl
  | obj kvs =>
    show parseValue fuel ((lbrace :: dumpInnerPairs kvs ++ [rbrace]) ++ rest)
      = some (PyVal.obj kvs, rest)
    have hin : (lbrace :: dumpInnerPairs kvs ++ [rbrace]) ++ rest
        = lbrace :: (dumpInnerPairs kvs ++ rbrace :: rest) := by simp
    rw [hin, parseValue_lbrace]
    cases kvs with
    | nil =>
      show (match skipSpaces (rbrace :: rest) with
            | [] => none
            | c2 :: r2 =>
              if c2 = rbrace then some (PyVal.obj [], r2)
              else (parseInnerPairs fuel (c2 :: r2)).map
                (fun p => (PyVal.obj (pairsToDict p.1), p.2)))
        = some (PyVal.obj [], rest)
      rw [skipSpaces_nonspace rbrace rest (by decide)]
      simp
    | cons x xs =>
      obtain ⟨k, v2⟩ := x
      have hq : ∃ T, dumpInnerPairs ((k, v2) :: xs) ++ rbrace :: rest = quoteChar :: T := by
        cases xs with
        | nil =>
          exact ⟨k ++ quoteChar :: ':' :: ' ' :: (dumpLeaf v2 ++ rbrace :: rest),
            by simp [dumpInnerPairs]⟩
        | cons y ys =>
          exact ⟨k ++ quoteChar :: ':' :: ' '
              :: (dumpLeaf v2 ++ ',' :: ' ' :: (dumpInnerPairs (y :: ys) ++ rbrace :: rest)),
            by simp [dumpInnerPairs]⟩
      obtain ⟨T, hT⟩ := hq
      rw [hT, skipSpaces_nonspace quoteChar T (by decide)]
      have hqr : (quoteChar = rbrace) = False := by decide
      simp only [hqr, if_false]
      rw [← hT,
        parseInnerPairs_complete ((k, v2) :: xs) fuel rest (by simp)
          (by simpa [valValid] using hv) (by simpa [innerLen] using hf)]
      simp only [Option.map]
      rw [pairsToDict_id _ (innerPairsValid_nodup _ (by simpa [valValid] using hv))]

theorem parseValue_space (fuel : Nat) (x : List Char) :
    parseValue fuel (' ' :: x) = parseValue fuel x := by
  unfold parseValue
  rw [skipSpaces_space_cons]

theorem parseValue_cn (fuel : Nat) (v : PyVal) (rest : List Char)
    (hv : valValid v = true) (hr : headNotDigitB rest = true) :
    parseValue fuel (dumpVal v ++ rest) = some (v, rest)
    ∨ parseValue fuel (dumpVal v ++ rest) = none := by
  cases v with
  | leaf l =>
    left
    obtain ⟨c, t, hct, hs, hb⟩ := dumpLeaf_head l
    show parseValue fuel (dumpLeaf l ++ rest) = _
    rw [hct, List.cons_append, parseValue_nonbrace fuel c (t ++ rest) hs hb,
      ← List.cons_append, ← hct,
      parseLeaf_complete l rest (by simpa [valValid] using hv) hr]
    rfl
  | obj kvs =>
    have hin : dumpVal (.obj kvs) ++ rest
        = lbrace :: (dumpInnerPairs kvs ++ rbrace :: rest) := by
      simp [dumpVal]
    rw [hin, parseValue_lbrace]
    cases kvs with
    | nil =>
      left
      show (match skipSpaces (rbrace :: rest) with
            | [] => none
            | c2 :: r2 =>
              if c2 = rbrace then some (PyVal.obj [], r2)
              else (parseInnerPairs fuel (c2 :: r2)).map
                (fun p => (PyVal.obj (pairsToDict p.1), p.2)))
        = some (PyVal.obj [], rest)
      rw [skipSpaces_nonspace rbrace rest (by decide)]
      simp
    | cons x xs =>
      obtain ⟨k, v2⟩ := x
      have hq : ∃ T, dumpInnerPairs ((k, v2) :: xs) ++ rbrace :: rest = quoteChar :: T := by
        cases xs with
        | nil =>
          exact ⟨k ++ quoteChar :: ':' :: ' ' :: (dumpLeaf v2 ++ rbrace :: rest),
            by simp [dumpInnerPairs]⟩
        | cons y ys =>
          exact ⟨k ++ quoteChar :: ':' :: ' '
              :: (dumpLeaf v2 ++ ',' :: ' ' :: (dumpInnerPairs (y :: ys) ++ rbrace :: rest)),
            by simp [dumpInnerPairs]⟩
      obtain ⟨T, hT⟩ := hq
      rw [hT, skipSpaces_nonspace quoteChar T (by decide)]
      have hqr : (quoteChar = rbrace) = False := by decide
      simp only [hqr, if_false]
      rw [← hT]
      rcases parseInnerPairs_cn ((k, v2) :: xs) fuel rest (by simp)
          (by simpa [valValid] using hv) with h | h
      · left
        rw [h]
        simp only [Option.map]
        rw [pairsToDict_id _ (innerPairsValid_nodup _ (by simpa [valValid] using hv))]
      · right
        rw [h]
        rfl

/-! parseTopPairs lemmas, following the parseInnerPairs pattern with
parseValue in place of parseLeaf. -/

theorem parseTopPairs_nil_input (fuel : Nat) : parseTopPairs fuel [] = none := by
  cases fuel <;> rfl

theorem parseTopPairs_space (fuel : Nat) (x : List Char) :
    parseTopPairs fuel (' ' :: x) = parseTopPairs fuel x := by
  cases fuel with
  | zero => rfl
  | succ f =>
    unfold parseTopPairs
    rw [skipSpaces_space_cons]

theorem parseTopPairs_quote (f : Nat) (r : List Char) :
    parseTopPairs (f + 1) (quoteChar :: r)
      = (match parseStrBody r with
         | none => none
         | some (k, r2) =>
           match skipSpaces r2 with
           | [] => none
           | c2 :: r3 =>
             if c2 = ':' then
               match parseValue f r3 with
               | none => none
               | some (v, r4) =>
                 match skipSpaces r4 with
                 | [] => none
                 | c3 :: r5 =>
                   if c3 = ',' then
                     (parseTopPairs f r5).map (fun p => ((k, v) :: p.1, p.2))
                   else if c3 = rbrace then some ([(k, v)], r5)
                   else none
             else none) := rfl

theorem parseTopPairs_complete (kvs : List (List Char × PyVal)) :
    ∀ (fuel : Nat) (rest : List Char), kvs ≠ [] → topPairsValid kvs = true →
    topPairsNeed kvs ≤ fuel →
    parseTopPairs fuel (dumpTopPairs kvs ++ rbrace :: rest) = some (kvs, rest) := by
  induction kvs with
  | nil => intro fuel rest h; exact absurd rfl h
  | cons kv r2 ih =>
    intro fuel rest _ hv hf
    obtain ⟨k, v⟩ := kv
    rw [topPairsValid_cons] at hv
    simp only [Bool.and_eq_true] at hv
    obtain ⟨⟨⟨hk, hvv⟩, _⟩, hrest⟩ := hv
    obtain ⟨f, rfl⟩ : ∃ f, fuel = f + 1 := ⟨fuel - 1, by simp [topPairsNeed] at hf; omega⟩
    have hneed : innerLen v ≤ f := by simp [topPairsNeed] at hf; omega
    cases r2 with
    | nil =>
      have hinput : dumpTopPairs [(k, v)] ++ rbrace :: rest
          = quoteChar :: (k ++ quoteChar :: ':' :: ' ' :: (dumpVal v ++ rbrace :: rest)) := by
        simp [dumpTopPairs]
      rw [hinput, parseTopPairs_quote, parseStrBody_complete k _ hk]
      simp only []
      rw [skipSpaces_nonspace ':' _ (by decide)]
      simp only [if_pos rfl]
      rw [parseValue_space, parseValue_complete f v _ hvv (by rfl) hneed]
      simp only []
      rw [skipSpaces_nonspace rbrace _ (by decide)]
      have hc1 : (rbrace = ',') = False := by decide
      simp [hc1]
    | cons x xs =>
      have hinput : dumpTopPairs ((k, v) :: x :: xs) ++ rbrace :: rest
          = quoteChar :: (k ++ quoteChar :: ':' :: ' '
              :: (dumpVal v ++ ',' :: ' ' :: (dumpTopPairs (x :: xs) ++ rbrace :: rest))) := by
        simp [dumpTopPairs]
      rw [hinput, parseTopPairs_quote, parseStrBody_complete k _ hk]
      simp only []
      rw [skipSpaces_nonspace ':' _ (by decide)]
      simp only [if_pos rfl]
      rw [parseValue_space, parseValue_complete f v _ hvv (by rfl) hneed]
      simp only []
      rw [skipSpaces_nonspace ',' _ (by decide)]
      simp only [if_pos rfl]
      rw [parseTopPairs_space,
        ih f rest (by simp) hrest (by simp [topPairsNeed] at hf ⊢; omega)]
      simp

theorem parseTopPairs_cn (kvs : List (List Char × PyVal)) :
    ∀ (fuel : Nat) (rest : List Char), kvs ≠ [] → topPairsValid kvs = true →
    parseTopPairs fuel (dumpTopPairs kvs ++ rbrace :: rest) = some (kvs, rest)
    ∨ parseTopPairs fuel (dumpTopPairs kvs ++ rbrace :: rest) = none := by
  induction kvs with
  | nil => intro fuel rest h; exact absurd rfl h
  | cons kv r2 ih =>
    intro fuel rest _ hv
    obtain ⟨k, v⟩ := kv
    rw [topPairsValid_cons] at hv
    simp only [Bool.and_eq_true] at hv
    obtain ⟨⟨⟨hk, hvv⟩, _⟩, hrest⟩ := hv
    cases fuel with
    | zero => right; rfl
    | succ f =>
      cases r2 with
      | nil =>
        have hinput : dumpTopPairs [(k, v)] ++ rbrace :: rest
            = quoteChar :: (k ++ quoteChar :: ':' :: ' ' :: (dumpVal v ++ rbrace :: rest)) := by
          simp [dumpTopPairs]
        rw [hinput, parseTopPairs_quote, parseStrBody_complete k _ hk]
        simp only []
        rw [skipSpaces_nonspace ':' _ (by decide)]
        simp only [if_pos rfl]
        rw [parseValue_space]
        rcases parseValue_cn f v (rbrace :: rest) hvv (by rfl) with h | h
        · rw [h]
          simp only []
          rw [skipSpaces_nonspace rbrace _ (by decide)]
          have hc1 : (rbrace = ',') = False := by decide
          left
          simp [hc1]
        · rw [h]
          right
          rfl
      | cons x xs =>
        have hinput : dumpTopPairs ((k, v) :: x :: xs) ++ rbrace :: rest
            = quoteChar :: (k ++ quoteChar :: ':' :: ' '
                :: (dumpVal v ++ ',' :: ' ' :: (dumpTopPairs (x :: xs) ++ rbrace :: rest))) := by
          simp [dumpTopPairs]
        rw [hinput, parseTopPairs_quote, parseStrBody_complete k _ hk]
        simp only []
        rw [skipSpaces_nonspace ':' _ (by decide)]
        simp only [if_pos rfl]
        rw [parseValue_space]
        rcases parseValue_cn f v (',' :: ' ' :: (dumpTopPairs (x :: xs) ++ rbrace :: rest))
            hvv (by rfl) with h | h
        · rw [h]
          simp only []
          rw [skipSpaces_nonspace ',' _ (by decide)]
          simp only [if_pos rfl]
          rw [parseTopPairs_space]
          rcases ih f rest (by simp) hrest with h2 | h2
          · left
            rw [h2]
            simp
          · right
            rw [h2]
            rfl
        · rw [h]
          right
          rfl

/-! parseDoc and the load/dump round trip. -/

theorem parseDoc_nonbrace (fuel : Nat) (c : Char) (r : List Char)
    (hs : isSpaceCh c = false) (hb : (c = lbrace) = False) :
    parseDoc fuel (c :: r) = (parseLeaf (c :: r)).map (fun p => (.leafDoc p.1, p.2)) := by
  unfold parseDoc
  rw [skipSpaces_nonspace c r hs]
  simp [hb]

theorem parseDoc_lbrace (fuel : Nat) (r : List Char) :
    parseDoc fuel (lbrace :: r)
      = (match skipSpaces r with
         | [] => none
         | c2 :: r2 =>
           if c2 = rbrace then some (.dictDoc [], r2)
           else (parseTopPairs fuel (c2 :: r2)).map
             (fun p => (.dictDoc (pairsToDict p.1), p.2))) := by
  unfold parseDoc
  rw [skipSpaces_nonspace lbrace r (by decide)]
  simp

theorem parseDoc_complete (fuel : Nat) (d : PyDoc) (rest : List Char)
    (hv : docValid d = true) (hr : headNotDigitB rest = true) (hf : docNeed d ≤ fuel) :
    parseDoc fuel (dumpDoc d ++ rest) = some (d, rest) := by
  cases d with
  | leafDoc l =>
    obtain ⟨c, t, hct, hs, hb⟩ := dumpLeaf_head l
    show parseDoc fuel (dumpLeaf l ++ rest) = _
    rw [hct, List.cons_append, parseDoc_nonbrace fuel c (t ++ rest) hs hb,
      ← List.cons_append, ← hct,
      parseLeaf_complete l rest (by simpa [docValid] using hv) hr]
    rfl
  | dictDoc kvs =>
    have hin : dumpDoc (.dictDoc kvs) ++ rest
        = lbrace :: (dumpTopPairs kvs ++ rbrace :: rest) := by
      simp [dumpDoc]
    rw [hin, parseDoc_lbrace]
    cases kvs with
    | nil =>
      show (match skipSpaces (rbrace :: rest) with
            | [] => none
            | c2 :: r2 =>
              if c2 = rbrace then some (PyDoc.dictDoc [], r2)
              else (parseTopPairs fuel (c2 :: r2)).map
                (fun p => (PyDoc.dictDoc (pairsToDict p.1), p.2)))
        = some (PyDoc.dictDoc [], rest)
      rw [skipSpaces_nonspace rbrace rest (by decide)]
      simp
    | cons x xs =>
      obtain ⟨k, v2⟩ := x
      have hq : ∃ T, dumpTopPairs ((k, v2) :: xs) ++ rbrace :: rest = quoteChar :: T := by
        cases xs with
        | nil =>
          exact ⟨k ++ quoteChar :: ':' :: ' ' :: (dumpVal v2 ++ rbrace :: rest),
            by simp [dumpTopPairs]⟩
        | cons y ys =>
          exact ⟨k ++ quoteChar :: ':' :: ' '
              :: (dumpVal v2 ++ ',' :: ' ' :: (dumpTopPairs (y :: ys) ++ rbrace :: rest)),
            by simp [dumpTopPairs]⟩
      obtain ⟨T, hT⟩ := hq
      rw [hT, skipSpaces_nonspace quoteChar T (by decide)]
      have hqr : (quoteChar = rbrace) = False := by decide
      simp only [hqr, if_false]
      rw [← hT,
        parseTopPairs_complete ((k, v2) :: xs) fuel rest (by simp)
          (by simpa [docValid] using hv) (by simpa [docNeed] using hf)]
      simp only [Option.map]
      rw [pairsToDict_id _ (topPairsValid_nodup _ (by simpa [docValid] using hv))]

theorem innerPairs_len_le (kvs : List (List Char × PyLeaf)) :
    kvs.length ≤ (dumpInnerPairs kvs).length + 1 := by
  induction kvs with
  | nil => simp
  | cons kv rest ih =>
    obtain ⟨k, v⟩ := kv
    cases rest with
    | nil => simp [dumpInnerPairs]
    | cons y ys =>
      simp only [dumpInnerPairs, List.length_cons, List.length_append] at ih ⊢
      omega

theorem innerLen_le_dumpVal (v : PyVal) : innerLen v ≤ (dumpVal v).length := by
  cases v with
  | leaf l => simp [innerLen]
  | obj kvs =>
    have := innerPairs_len_le kvs
    simp only [innerLen, dumpVal, List.length_cons, List.length_append]
    simp at this ⊢
    omega

theorem topPairsNeed_le (kvs : List (List Char × PyVal)) :
    topPairsNeed kvs ≤ (dumpTopPairs kvs).length := by
  induction kvs with
  | nil => simp [topPairsNeed]
  | cons kv rest ih =>
    obtain ⟨k, v⟩ := kv
    have hvl := innerLen_le_dumpVal v
    cases rest with
    | nil =>
      simp only [topPairsNeed, dumpTopPairs, List.length_cons, List.length_append]
      omega
    | cons y ys =>
      simp only [topPairsNeed, dumpTopPairs, List.length_cons, List.length_append] at ih ⊢
      omega

theorem docNeed_le (d : PyDoc) : docNeed d ≤ (dumpDoc d).length + 1 := by
  cases d with
  | leafDoc l => simp [docNeed]
  | dictDoc kvs =>
    have := topPairsNeed_le kvs
    simp only [docNeed, dumpDoc, List.length_cons, List.length_append]
    omega

theorem json_load_dump (d : PyDoc) (hv : docValid d = true) :
    json_load (dumpDoc d) = some d := by
  unfold json_load
  have h := parseDoc_complete ((dumpDoc d).length + 1) d [] hv rfl (docNeed_le d)
  rw [List.append_nil] at h
  rw [h]
  rfl

/-! Prefix analysis: a serialized dictionary cut off anywhere before its
end fails to parse.  This backs the crash analysis of save_last_state. -/

theorem append_cut {α : Type} (a b c d : List α) (h : a ++ b = c ++ d) :
    (∃ r, a = c ++ r ∧ d = r ++ b) ∨ (∃ r, c = a ++ r ∧ b = r ++ d) := by
  rw [List.append_eq_append_iff] at h
  rcases h with ⟨r, h1, h2⟩ | ⟨r, h1, h2⟩
  · right; exact ⟨r, h1, h2⟩
  · left; exact ⟨r, h1, h2⟩

theorem headNotDigitB_append_left (a b : List Char)
    (h : headNotDigitB (a ++ b) = true) : headNotDigitB a = true := by
  cases a with
  | nil => rfl
  | cons c t => simpa [headNotDigitB] using h

theorem strNoQuote_append (a b : List Char) :
    strNoQuote (a ++ b) = (strNoQuote a && strNoQuote b) := by
  simp [strNoQuote]

theorem parseValue_nil (fuel : Nat) : parseValue fuel [] = none := rfl

theorem parseDoc_nil (fuel : Nat) : parseDoc fuel [] = none := rfl

theorem pairFront_analysis (f : Nat) (k t q : List Char) (v : PyLeaf) (TAIL : List Char)
    (hk : strNoQuote k = true) (hv : leafValid v = true)
    (heq : t ++ q = k ++ quoteChar :: ':' :: ' ' :: (dumpLeaf v ++ TAIL)) (hq : q ≠ [])
    (hTAIL : headNotDigitB TAIL = true) :
    parseInnerPairs (f + 1) (quoteChar :: t) = none
    ∨ ∃ r5, TAIL = r5 ++ q ∧ parseInnerPairs (f + 1) (quoteChar :: t)
        = (match skipSpaces r5 with
           | [] => none
           | c3 :: r6 =>
             if c3 = ',' then (parseInnerPairs f r6).map (fun p2 => ((k, v) :: p2.1, p2.2))
             else if c3 = rbrace then some ([(k, v)], r6)
             else none) := by
  rw [parseInnerPairs_quote]
  rcases append_cut t q k (quoteChar :: ':' :: ' ' :: (dumpLeaf v ++ TAIL)) heq with
    ⟨r, hr1, hr2⟩ | ⟨r, hr1, hr2⟩
  · cases r with
    | nil =>
      left
      have ht : t = k := by simpa using hr1
      rw [ht, parseStrBody_noQuote k hk]
    | cons b r2b =>
      rw [List.cons_append] at hr2
      injection hr2 with hb1 hb2
      subst hb1
      rw [hr1, parseStrBody_complete k r2b hk]
      simp only []
      cases r2b with
      | nil => left; rfl
      | cons c3 r3 =>
        rw [List.cons_append] at hb2
        injection hb2 with hc31 hc32
        subst hc31
        rw [skipSpaces_nonspace ':' r3 (by decide)]
        simp only [if_pos rfl]
        cases r3 with
        | nil =>
          left
          rw [parseLeaf_nil]
          simp
        | cons c4 r4 =>
          rw [List.cons_append] at hc32
          injection hc32 with hc41 hc42
          subst hc41
          rw [parseLeaf_space]
          rcases append_cut r4 q (dumpLeaf v) TAIL hc42.symm with
            ⟨r5, hr5a, hr5b⟩ | ⟨r5, hr5a, hr5b⟩
          · right
            refine ⟨r5, hr5b, ?_⟩
            have hhead5 : headNotDigitB r5 = true := by
              rw [hr5b] at hTAIL
              exact headNotDigitB_append_left r5 q hTAIL
            rw [hr5a, parseLeaf_complete v r5 hv hhead5]
            simp
          · by_cases h5 : r5 = []
            · left
              subst h5
              have hr4 : r4 = dumpLeaf v := by simpa using hr5a.symm
              rw [hr4, show dumpLeaf v = dumpLeaf v ++ [] from by simp,
                parseLeaf_complete v [] hv rfl]
              rfl
            · rcases parseLeaf_cutoff v r4 r5 hv hr5a h5 with h | ⟨m, h⟩
              · left
                rw [h]
                rfl
              · left
                rw [h]
                rfl
  · left
    have hkt : strNoQuote t = true := by
      rw [hr1, strNoQuote_append] at hk
      simp only [Bool.and_eq_true] at hk
      exact hk.1
    rw [parseStrBody_noQuote t hkt]

theorem parseInnerPairs_cutoff (kvs : List (List Char × PyLeaf)) :
    ∀ (fuel : Nat) (p q : List Char), kvs ≠ [] → innerPairsValid kvs = true →
    dumpInnerPairs kvs ++ [rbrace] = p ++ q → q ≠ [] →
    parseInnerPairs fuel p = none := by
  induction kvs with
  | nil => intro fuel p q h; exact absurd rfl h
  | cons kv r2 ih =>
    intro fuel p q _ hv heq hq
    obtain ⟨k, v⟩ := kv
    rw [innerPairsValid_cons] at hv
    simp only [Bool.and_eq_true] at hv
    obtain ⟨⟨⟨hk, hlv⟩, _⟩, hrest⟩ := hv
    cases p with
    | nil => exact parseInnerPairs_nil_input fuel
    | cons a t =>
      cases fuel with
      | zero => rfl
      | succ f =>
        cases r2 with
        | nil =>
          simp only [dumpInnerPairs, List.cons_append, List.append_assoc] at heq
          injection heq with ha ht
          subst ha
          rcases pairFront_analysis f k t q v [rbrace] hk hlv ht.symm hq rfl with h | ⟨r5, h5, hm⟩
          · exact h
          · rw [hm]
            cases r5 with
            | nil => rfl
            | cons c r6 =>
              exfalso
              injection h5 with h5a h5b
              cases r6 with
              | nil =>
                simp at h5b
                exact hq h5b
              | cons d r7 => simp at h5b
        | cons x xs =>
          simp only [dumpInnerPairs, List.cons_append, List.append_assoc] at heq
          injection heq with ha ht
          subst ha
          rcases pairFront_analysis f k t q v
              (',' :: ' ' :: (dumpInnerPairs (x :: xs) ++ [rbrace]))
              hk hlv ht.symm hq rfl with h | ⟨r5, h5, hm⟩
          · exact h
          · rw [hm]
            cases r5 with
            | nil => rfl
            | cons c r6 =>
              injection h5 with h5a h5b
              subst h5a
              rw [skipSpaces_nonspace ',' r6 (by decide)]
              simp only [if_pos rfl]
              cases r6 with
              | nil =>
                rw [parseInnerPairs_nil_input f]
                rfl
              | cons d r7 =>
                injection h5b with h5c h5d
                subst h5c
                have h5d2 : dumpInnerPairs (x :: xs) ++ [rbrace] = r7 ++ q := h5d
                rw [parseInnerPairs_space f r7,
                  ih f r7 q (by simp) hrest h5d2 hq]
                rfl

theorem dumpInnerPairs_cons_head (x : List Char × PyLeaf) (xs : List (List Char × PyLeaf)) :
    ∃ T, dumpInnerPairs (x :: xs) = quoteChar :: T := by
  obtain ⟨k, v⟩ := x
  cases xs with
  | nil => exact ⟨k ++ quoteChar :: ':' :: ' ' :: dumpLeaf v, by simp [dumpInnerPairs]⟩
  | cons y ys =>
    exact ⟨k ++ quoteChar :: ':' :: ' '
        :: (dumpLeaf v ++ ',' :: ' ' :: dumpInnerPairs (y :: ys)),
      by simp [dumpInnerPairs]⟩

theorem dumpTopPairs_cons_head (x : List Char × PyVal) (xs : List (List Char × PyVal)) :
    ∃ T, dumpTopPairs (x :: xs) = quoteChar :: T := by
  obtain ⟨k, v⟩ := x
  cases xs with
  | nil => exact ⟨k ++ quoteChar :: ':' :: ' ' :: dumpVal v, by simp [dumpTopPairs]⟩
  | cons y ys =>
    exact ⟨k ++ quoteChar :: ':' :: ' '
        :: (dumpVal v ++ ',' :: ' ' :: dumpTopPairs (y :: ys)),
      by simp [dumpTopPairs]⟩

theorem parseValue_cutoff (fuel : Nat) (v : PyVal) (p q : List Char)
    (hv : valValid v = true) (heq : dumpVal v = p ++ q) (hq : q ≠ []) :
    parseValue fuel p = none
    ∨ ∃ m : Int, parseValue fuel p = some (.leaf (.int m), []) := by
  cases v with
  | leaf l =>
    cases p with
    | nil => left; exact parseValue_nil fuel
    | cons a t =>
      obtain ⟨c0, t0, hct, hs, hb⟩ := dumpLeaf_head l
      have heq0 : dumpLeaf l = (a :: t) ++ q := heq
      rw [hct, List.cons_append] at heq0
      injection heq0 with ha ht
      subst ha
      rw [parseValue_nonbrace fuel c0 t hs hb]
      have heq3 : dumpLeaf l = (c0 :: t) ++ q := by
        rw [hct, List.cons_append, ht]
      rcases parseLeaf_cutoff l (c0 :: t) q (by simpa [valValid] using hv) heq3 hq with
        h | ⟨m, h⟩
      · left; rw [h]; rfl
      · right
        exact ⟨m, by rw [h]; rfl⟩
  | obj kvs =>
    left
    cases p with
    | nil => exact parseValue_nil fuel
    | cons a t =>
      have heq0 : lbrace :: (dumpInnerPairs kvs ++ [rbrace]) = a :: (t ++ q) := by
        have h1 : dumpVal (.obj kvs) = (a :: t) ++ q := heq
        simpa [dumpVal, List.cons_append] using h1
      injection heq0 with ha ht
      subst ha
      rw [parseValue_lbrace]
      cases kvs with
      | nil =>
        have ht2 : t = [] := by
          cases t with
          | nil => rfl
          | cons c2 t2 =>
            exfalso
            simp only [dumpInnerPairs, List.nil_append, List.cons_append] at ht
            injection ht with h1 h2
            cases t2 with
            | nil =>
              simp at h2
              exact hq h2
            | cons d t3 => simp at h2
        subst ht2
        rfl
      | cons x xs =>
        cases t with
        | nil => rfl
        | cons c2 t2 =>
          obtain ⟨T, hT⟩ := dumpInnerPairs_cons_head x xs
          have ht2 : quoteChar :: (T ++ [rbrace]) = c2 :: (t2 ++ q) := by
            rw [hT, List.cons_append] at ht
            simpa using ht
          injection ht2 with hc2 _
          subst hc2
          rw [skipSpaces_nonspace quoteChar t2 (by decide)]
          have hqr : (quoteChar = rbrace) = False := by decide
          simp only [hqr, if_false]
          rw [parseInnerPairs_cutoff (x :: xs) fuel (quoteChar :: t2) q (by simp)
            (by simpa [valValid] using hv) ht hq]
          rfl

theorem topPairFront_analysis (f : Nat) (k t q : List Char) (v : PyVal) (TAIL : List Char)
    (hk : strNoQuote k = true) (hv : valValid v = true)
    (heq : t ++ q = k ++ quoteChar :: ':' :: ' ' :: (dumpVal v ++ TAIL)) (hq : q ≠ [])
    (hTAIL : headNotDigitB TAIL = true) :
    parseTopPairs (f + 1) (quoteChar :: t) = none
    ∨ ∃ r5, TAIL = r5 ++ q ∧ parseTopPairs (f + 1) (quoteChar :: t)
        = (match skipSpaces r5 with
           | [] => none
           | c3 :: r6 =>
             if c3 = ',' then (parseTopPairs f r6).map (fun p2 => ((k, v) :: p2.1, p2.2))
             else if c3 = rbrace then some ([(k, v)], r6)
             else none) := by
  rw [parseTopPairs_quote]
  rcases append_cut t q k (quoteChar :: ':' :: ' ' :: (dumpVal v ++ TAIL)) heq with
    ⟨r, hr1, hr2⟩ | ⟨r, hr1, hr2⟩
  · cases r with
    | nil =>
      left
      have ht : t = k := by simpa using hr1
      rw [ht, parseStrBody_noQuote k hk]
    | cons b r2b =>
      rw [List.cons_append] at hr2
      injection hr2 with hb1 hb2
      subst hb1
      rw [hr1, parseStrBody_complete k r2b hk]
      simp only []
      cases r2b with
      | nil => left; rfl
      | cons c3 r3 =>
        rw [List.cons_append] at hb2
        injection hb2 with hc31 hc32
        subst hc31
        rw [skipSpaces_nonspace ':' r3 (by decide)]
        simp only [if_pos rfl]
        cases r3 with
        | nil =>
          left
          rw [parseValue_nil]
          simp
        | cons c4 r4 =>
          rw [List.cons_append] at hc32
          injection hc32 with hc41 hc42
          subst hc41
          rw [parseValue_space]
          rcases append_cut r4 q (dumpVal v) TAIL hc42.symm with
            ⟨r5, hr5a, hr5b⟩ | ⟨r5, hr5a, hr5b⟩
          · have hhead5 : headNotDigitB r5 = true := by
              rw [hr5b] at hTAIL
              exact headNotDigitB_append_left r5 q hTAIL
            rw [hr5a]
            rcases parseValue_cn f v r5 hv hhead5 with h | h
            · right
              refine ⟨r5, hr5b, ?_⟩
              rw [h]
              simp
            · left
              rw [h]
              rfl
          · by_cases h5 : r5 = []
            · left
              subst h5
              have hr4 : r4 = dumpVal v := by simpa using hr5a.symm
              rw [hr4]
              rcases parseValue_cn f v [] hv rfl with h | h
              · rw [show dumpVal v = dumpVal v ++ [] from by simp, h]
                rfl
              · rw [show dumpVal v = dumpVal v ++ [] from by simp, h]
                rfl
            · rcases parseValue_cutoff f v r4 r5 hv hr5a h5 with h | ⟨m, h⟩
              · left
                rw [h]
                rfl
              · left
                rw [h]
                rfl
  · left
    have hkt : strNoQuote t = true := by
      rw [hr1, strNoQuote_append] at hk
      simp only [Bool.and_eq_true] at hk
      exact hk.1
    rw [parseStrBody_noQuote t hkt]

theorem parseTopPairs_cutoff (kvs : List (List Char × PyVal)) :
    ∀ (fuel : Nat) (p q : List Char), kvs ≠ [] → topPairsValid kvs = true →
    dumpTopPairs kvs ++ [rbrace] = p ++ q → q ≠ [] →
    parseTopPairs fuel p = none := by
  induction kvs with
  | nil => intro fuel p q h; exact absurd rfl h
  | cons kv r2 ih =>
    intro fuel p q _ hv heq hq
    obtain ⟨k, v⟩ := kv
    rw [topPairsValid_cons] at hv
    simp only [Bool.and_eq_true] at hv
    obtain ⟨⟨⟨hk, hvv⟩, _⟩, hrest⟩ := hv
    cases p with
    | nil => exact parseTopPairs_nil_input fuel
    | cons a t =>
      cases fuel with
      | zero => rfl
      | succ f =>
        cases r2 with
        | nil =>
          simp only [dumpTopPairs, List.cons_append, List.append_assoc] at heq
          injection heq with ha ht
          subst ha
          rcases topPairFront_analysis f k t q v [rbrace] hk hvv ht.symm hq rfl with
            h | ⟨r5, h5, hm⟩
          · exact h
          · rw [hm]
            cases r5 with
            | nil => rfl
            | cons c r6 =>
              exfalso
              injection h5 with h5a h5b
              cases r6 with
              | nil =>
                simp at h5b
                exact hq h5b
              | cons d r7 => simp at h5b
        | cons x xs =>
          simp only [dumpTopPairs, List.cons_append, List.append_assoc] at heq
          injection heq with ha ht
          subst ha
          rcases topPairFront_analysis f k t q v
              (',' :: ' ' :: (dumpTopPairs (x :: xs) ++ [rbrace]))
              hk hvv ht.symm hq rfl with h | ⟨r5, h5, hm⟩
          · exact h
          · rw [hm]
            cases r5 with
            | nil => rfl
            | cons c r6 =>
              injection h5 with h5a h5b
              subst h5a
              rw [skipSpaces_nonspace ',' r6 (by decide)]
              simp only [if_pos rfl]
              cases r6 with
              | nil =>
                rw [parseTopPairs_nil_input f]
                rfl
              | cons d r7 =>
                injection h5b with h5c h5d
                subst h5c
                have h5d2 : dumpTopPairs (x :: xs) ++ [rbrace] = r7 ++ q := h5d
                rw [parseTopPairs_space f r7,
                  ih f r7 q (by simp) hrest h5d2 hq]
                rfl

theorem parseDoc_cutoff (kvs : List (List Char × PyVal)) (fuel : Nat) (p q : List Char)
    (hv : topPairsValid kvs = true)
    (heq : dumpDoc (.dictDoc kvs) = p ++ q) (hq : q ≠ []) :
    parseDoc fuel p = none := by
  cases p with
  | nil => exact parseDoc_nil fuel
  | cons a t =>
    have heq0 : lbrace :: (dumpTopPairs kvs ++ [rbrace]) = a :: (t ++ q) := by
      have h1 : dumpDoc (.dictDoc kvs) = (a :: t) ++ q := heq
      simpa [dumpDoc, List.cons_append] using h1
    injection heq0 with ha ht
    subst ha
    rw [parseDoc_lbrace]
    cases kvs with
    | nil =>
      have ht2 : t = [] := by
        cases t with
        | nil => rfl
        | cons c2 t2 =>
          exfalso
          simp only [List.nil_append] at ht
          injection ht with h1 h2
          cases t2 with
          | nil =>
            simp at h2
            exact hq h2
          | cons d t3 => simp at h2
      subst ht2
      rfl
    | cons x xs =>
      cases t with
      | nil => rfl
      | cons c2 t2 =>
        obtain ⟨T, hT⟩ := dumpTopPairs_cons_head x xs
        have ht2 : quoteChar :: (T ++ [rbrace]) = c2 :: (t2 ++ q) := by
          rw [hT, List.cons_append] at ht
          simpa using ht
        injection ht2 with hc2 _
        subst hc2
        rw [skipSpaces_nonspace quoteChar t2 (by decide)]
        have hqr : (quoteChar = rbrace) = False := by decide
        simp only [hqr, if_false]
        rw [parseTopPairs_cutoff (x :: xs) fuel (quoteChar :: t2) q (by simp) hv ht hq]
        rfl

theorem json_load_dump_cutoff (kvs : List (List Char × PyVal)) (p q : List Char)
    (hv : topPairsValid kvs = true)
    (heq : dumpDoc (.dictDoc kvs) = p ++ q) (hq : q ≠ []) :
    json_load p = none := by
  unfold json_load
  rw [parseDoc_cutoff kvs (p.length + 1) p q hv heq hq]

/-! The run state record is serializable. -/

theorem runStateToDoc_valid (S : RunState) : docValid (runStateToDoc S) = true := by
  cases hS : S.last_snapshot with
  | none =>
    unfold runStateToDoc
    rw [hS]
    rfl
  | some m =>
    unfold runStateToDoc
    rw [hS]
    rfl

/-- C9: saving any run state record, including one with no last sample
(null), and loading the state file straight back recovers the same record:
the StateStore save/load pair is a round trip. -/
theorem claim_C9_state_roundtrip (S : RunState) :
    load_last_state (some (save_last_state (runStateToDoc S))) = runStateToDoc S := by
  show (match json_load (dumpDoc (runStateToDoc S)) with
        | some v => v
        | none => PyDoc.dictDoc []) = runStateToDoc S
  rw [json_load_dump (runStateToDoc S) (runStateToDoc_valid S)]

/-! Lookup and insertion lemmas for the frame claims. -/

theorem dictLookup_dictSet_self {α : Type} (d : List (List Char × α)) (k : List Char) (v : α) :
    dictLookup (dictSet d k v) k = some v := by
  induction d with
  | nil => simp [dictSet, dictLookup]
  | cons kw rest ih =>
    obtain ⟨k2, w⟩ := kw
    by_cases hk : k2 = k
    · simp [dictSet, dictLookup, hk]
    · simp [dictSet, dictLookup, hk, ih]

theorem dictLookup_dictSet_ne {α : Type} (d : List (List Char × α)) (k k2 : List Char) (v : α)
    (h : k2 ≠ k) : dictLookup (dictSet d k v) k2 = dictLookup d k2 := by
  induction d with
  | nil =>
    have h2 : ¬ (k = k2) := fun hh => h hh.symm
    simp [dictSet, dictLookup, h2]
  | cons kw rest ih =>
    obtain ⟨k3, w⟩ := kw
    by_cases hk : k3 = k
    · subst hk
      have h2 : ¬ (k3 = k2) := fun hh => h hh.symm
      simp [dictSet, dictLookup, h2]
    · by_cases hk2 : k3 = k2
      · subst hk2
        simp [dictSet, dictLookup, hk]
      · simp [dictSet, dictLookup, hk, hk2, ih]

/-! Evaluation lemmas for run_once: its error cases and its successful
case, matching the sequence of monitor.py lines 133-171. -/

theorem run_once_collection (cfg : Config) (env : Env) (st : Option (List Char))
    (e : Unit) (hm : env.metricsResult = .error e) :
    run_once cfg env st = .error .collection := by
  unfold run_once
  rw [hm]

theorem run_once_badstate (cfg : Config) (env : Env) (st : Option (List Char))
    (snap : Snapshot) (l : PyLeaf) (hm : env.metricsResult = .ok snap)
    (hl : load_last_state st = .leafDoc l) :
    run_once cfg env st = .error .stateTypeError := by
  simp only [run_once, hm, hl]

theorem run_once_tailerr (cfg : Config) (env : Env) (st : Option (List Char))
    (snap : Snapshot) (kvs : List (List Char × PyVal)) (e : TailErr)
    (hm : env.metricsResult = .ok snap)
    (hl : load_last_state st = .dictDoc kvs)
    (htl : tail_log env.logFile (dictGetD kvs logPosKey (PyVal.leaf (.int 0))) 200000
       = .error e) :
    run_once cfg env st = .error (.tailErr e) := by
  simp only [run_once, hm, hl, htl]

theorem run_once_eval (cfg : Config) (env : Env) (st : Option (List Char))
    (snap : Snapshot) (kvs : List (List Char × PyVal)) (lines : List (List Char))
    (new_pos : Int)
    (hm : env.metricsResult = .ok snap)
    (hl : load_last_state st = .dictDoc kvs)
    (htl : tail_log env.logFile (dictGetD kvs logPosKey (PyVal.leaf (.int 0))) 200000
       = .ok (lines, new_pos)) :
    run_once cfg env st = .ok
      ⟨save_last_state (.dictDoc (cycleFinal kvs snap new_pos)),
       cycleFinal kvs snap new_pos, kvs, new_pos, cycleAlerts cfg snap lines,
       (cycleSend cfg snap lines env.smtpOk).isSome,
       ((cycleSend cfg snap lines env.smtpOk).map Prod.fst).getD false,
       (match cycleSend cfg snap lines env.smtpOk with
        | none => [LogEntry.noAlerts]
        | some p => p.2 ++ [LogEntry.alertsWarning])⟩ := by
  simp only [run_once, hm, hl, htl]
  rfl

theorem cycleSend_of_isSome (cfg : Config) (snap : Snapshot) (lines : List (List Char))
    (b : Bool) (h : (cycleSend cfg snap lines b).isSome = true) :
    cycleSend cfg snap lines b = some (send_email b) := by
  by_cases hA : (cycleAlerts cfg snap lines).isEmpty
  · unfold cycleSend at h
    rw [if_pos hA] at h
    simp at h
  · unfold cycleSend
    rw [if_neg hA]

theorem cycleSend_isSome_eq (cfg : Config) (snap : Snapshot) (lines : List (List Char))
    (b1 b2 : Bool) :
    (cycleSend cfg snap lines b1).isSome = (cycleSend cfg snap lines b2).isSome := by
  unfold cycleSend
  split_ifs <;> rfl

/-- C10: one cycle rewrites only the log_pos and last_snapshot entries of
the persisted record: every other key present in the loaded state is
written back unchanged, and the saved file content is exactly the
serialization of that final record, whose log_pos entry is the new
offset. -/
theorem claim_C10_state_frame (cfg : Config) (env : Env) (st : Option (List Char))
    (out : RunOut) (k : List Char)
    (h : run_once cfg env st = .ok out)
    (h1 : k ≠ logPosKey) (h2 : k ≠ lastSnapshotKey) :
    dictLookup out.finalState k = dictLookup out.loadedState k
    ∧ out.savedContent = save_last_state (.dictDoc out.finalState)
    ∧ dictLookup out.finalState logPosKey = some (PyVal.leaf (.int out.newPos)) := by
  cases hm : env.metricsResult with
  | error e =>
    rw [run_once_collection cfg env st e hm] at h
    cases h
  | ok snap =>
    cases hl : load_last_state st with
    | leafDoc l =>
      rw [run_once_badstate cfg env st snap l hm hl] at h
      cases h
    | dictDoc kvs =>
      cases htl : tail_log env.logFile (dictGetD kvs logPosKey (PyVal.leaf (.int 0)))
          200000 with
      | error e =>
        rw [run_once_tailerr cfg env st snap kvs e hm hl htl] at h
        cases h
      | ok pr =>
        obtain ⟨lines, new_pos⟩ := pr
        rw [run_once_eval cfg env st snap kvs lines new_pos hm hl htl] at h
        injection h with h
        subst h
        refine ⟨?_, rfl, ?_⟩
        · show dictLookup (cycleFinal kvs snap new_pos) k = dictLookup kvs k
          unfold cycleFinal
          rw [dictLookup_dictSet_ne _ _ _ _ h2, dictLookup_dictSet_ne _ _ _ _ h1]
        · show dictLookup (cycleFinal kvs snap new_pos) logPosKey
            = some (PyVal.leaf (.int new_pos))
          unfold cycleFinal
          rw [dictLookup_dictSet_ne _ _ _ _ (by decide : logPosKey ≠ lastSnapshotKey),
            dictLookup_dictSet_self]

theorem claim_C10_state_frame_witness :
    ∃ out, run_once cfgW envQuiet (some (save_last_state stateWithExtra)) = .ok out
      ∧ dictLookup out.finalState extraKey = dictLookup out.loadedState extraKey
      ∧ dictLookup out.loadedState extraKey = some (PyVal.leaf (.str ['h', 'i'])) := by
  refine ⟨_, rfl, ?_, ?_⟩
  · exact (claim_C10_state_frame cfgW envQuiet (some (save_last_state stateWithExtra)) _
      extraKey rfl (by decide) (by decide)).1
  · decide

/-- C1: in a cycle that composes and dispatches an alert, a transport
failure changes nothing about persistence: the run still completes, the
send failure is caught and logged, and the state file is written with
exactly the content a successful dispatch would have written — the final
record carrying the new offset and the new metrics sample. -/
theorem claim_C1_dispatch_failure_still_saves (cfg : Config) (snap : Snapshot)
    (logF : Option (List Char)) (st : Option (List Char)) (outT : RunOut)
    (hT : run_once cfg ⟨.ok snap, logF, true⟩ st = .ok outT)
    (hd : outT.dispatched = true) :
    ∃ outF, run_once cfg ⟨.ok snap, logF, false⟩ st = .ok outF
      ∧ outF.savedContent = outT.savedContent
      ∧ outF.finalState = outT.finalState
      ∧ outF.newPos = outT.newPos
      ∧ outF.dispatched = true
      ∧ outF.delivered = false
      ∧ LogEntry.emailFailed ∈ outF.opLog
      ∧ dictLookup outF.finalState logPosKey = some (PyVal.leaf (.int outF.newPos))
      ∧ dictLookup outF.finalState lastSnapshotKey = some (snapshotToPyVal snap) := by
  cases hl : load_last_state st with
  | leafDoc l =>
    rw [run_once_badstate _ _ st snap l rfl hl] at hT
    cases hT
  | dictDoc kvs =>
    cases htl : tail_log logF (dictGetD kvs logPosKey (PyVal.leaf (.int 0))) 200000 with
    | error e =>
      rw [run_once_tailerr _ _ st snap kvs e rfl hl htl] at hT
      cases hT
    | ok pr =>
      obtain ⟨lines, new_pos⟩ := pr
      rw [run_once_eval _ _ st snap kvs lines new_pos rfl hl htl] at hT
      injection hT with hT
      subst hT
      have hsT : cycleSend cfg snap lines true = some (send_email true) :=
        cycleSend_of_isSome cfg snap lines true hd
      have hsF : cycleSend cfg snap lines false = some (send_email false) := by
        apply cycleSend_of_isSome
        rw [cycleSend_isSome_eq cfg snap lines false true]
        exact hd
      refine ⟨_, run_once_eval _ _ st snap kvs lines new_pos rfl hl htl, rfl, rfl, rfl,
        ?_, ?_, ?_, ?_, ?_⟩
      · show (cycleSend cfg snap lines false).isSome = true
        rw [hsF]
        rfl
      · show ((cycleSend cfg snap lines false).map Prod.fst).getD false = false
        rw [hsF]
        rfl
      · show LogEntry.emailFailed ∈
          (match cycleSend cfg snap lines false with
           | none => [LogEntry.noAlerts]
           | some p => p.2 ++ [LogEntry.alertsWarning])
        rw [hsF]
        simp [send_email]
      · show dictLookup (cycleFinal kvs snap new_pos) logPosKey
          = some (PyVal.leaf (.int new_pos))
        unfold cycleFinal
        rw [dictLookup_dictSet_ne _ _ _ _ (by decide : logPosKey ≠ lastSnapshotKey),
          dictLookup_dictSet_self]
      · show dictLookup (cycleFinal kvs snap new_pos) lastSnapshotKey
          = some (snapshotToPyVal snap)
        unfold cycleFinal
        rw [dictLookup_dictSet_self]

theorem claim_C1_dispatch_failure_still_saves_witness :
    ∃ outF, run_once cfgW ⟨.ok snapW, none, false⟩ none = .ok outF
      ∧ outF.dispatched = true
      ∧ outF.delivered = false
      ∧ LogEntry.emailFailed ∈ outF.opLog
      ∧ dictLookup outF.finalState lastSnapshotKey = some (snapshotToPyVal snapW) := by
  obtain ⟨outF, h1, _, _, _, h5, h6, h7, _, h9⟩ :=
    claim_C1_dispatch_failure_still_saves cfgW snapW none none _ rfl (by decide)
  exact ⟨outF, h1, h5, h6, h7, h9⟩

/-! C4: offset facts of one successful cycle. -/

theorem tail_log_ok_inv (file : Option (List Char)) (P : PyVal) (cap : Nat)
    (lines : List (List Char)) (np : Int)
    (h : tail_log file P cap = .ok (lines, np)) :
    0 ≤ np ∧ (file ≠ none → ∃ i : Int, P = .leaf (.int i) ∧ 0 ≤ i ∧ i ≤ np) := by
  cases file with
  | none =>
    simp only [tail_log, Except.ok.injEq, Prod.mk.injEq] at h
    refine ⟨?_, fun hf => absurd rfl hf⟩
    omega
  | some content =>
    cases P with
    | leaf l =>
      cases l with
      | int i =>
        simp only [tail_log] at h
        by_cases hi : i < 0
        · rw [if_pos hi] at h
          cases h
        · rw [if_neg hi] at h
          simp only [Except.ok.injEq, Prod.mk.injEq] at h
          obtain ⟨_, hnp⟩ := h
          refine ⟨by omega, fun _ => ⟨i, rfl, by omega, by omega⟩⟩
      | null => simp only [tail_log] at h; cases h
      | str s2 => simp only [tail_log] at h; cases h
    | obj kvs2 => simp only [tail_log] at h; cases h

/-- C4 counterexample: a successful cycle in which the monitored log file
is absent saves offset 0 even though the loaded state carried offset 100:
the persisted offset is not monotonically non-decreasing across all
successful cycles. -/
theorem claim_C4_cex :
    ∃ out, run_once cfgW envQuiet (some (save_last_state stateOffsetHundred)) = .ok out
      ∧ dictGetD out.loadedState logPosKey (PyVal.leaf (.int 0)) = PyVal.leaf (.int 100)
      ∧ out.newPos = 0
      ∧ out.newPos < 100 :=
  ⟨_, rfl, by decide, by decide, by decide⟩

/-- C4 (amended): the offset a successful cycle persists is always a
non-negative integer and is stored under log_pos; provided the log file
exists during the cycle, it is at least the offset loaded at cycle start
(the stored offset then is a non-negative integer).  When the file is
absent the offset is reset to 0 instead. -/
theorem claim_C4_offset_nonneg_monotone (cfg : Config) (env : Env)
    (st : Option (List Char)) (out : RunOut) (h : run_once cfg env st = .ok out) :
    0 ≤ out.newPos
    ∧ dictLookup out.finalState logPosKey = some (PyVal.leaf (.int out.newPos))
    ∧ (env.logFile ≠ none →
        ∃ i : Int, dictGetD out.loadedState logPosKey (PyVal.leaf (.int 0))
            = PyVal.leaf (.int i) ∧ 0 ≤ i ∧ i ≤ out.newPos) := by
  cases hm : env.metricsResult with
  | error e =>
    rw [run_once_collection cfg env st e hm] at h
    cases h
  | ok snap =>
    cases hl : load_last_state st with
    | leafDoc l =>
      rw [run_once_badstate cfg env st snap l hm hl] at h
      cases h
    | dictDoc kvs =>
      cases htl : tail_log env.logFile (dictGetD kvs logPosKey (PyVal.leaf (.int 0)))
          200000 with
      | error e =>
        rw [run_once_tailerr cfg env st snap kvs e hm hl htl] at h
        cases h
      | ok pr =>
        obtain ⟨lines, new_pos⟩ := pr
        rw [run_once_eval cfg env st snap kvs lines new_pos hm hl htl] at h
        injection h with h
        subst h
        obtain ⟨h0, hfile⟩ := tail_log_ok_inv env.logFile _ 200000 lines new_pos htl
        refine ⟨h0, ?_, hfile⟩
        show dictLookup (cycleFinal kvs snap new_pos) logPosKey
          = some (PyVal.leaf (.int new_pos))
        unfold cycleFinal
        rw [dictLookup_dictSet_ne _ _ _ _ (by decide : logPosKey ≠ lastSnapshotKey),
          dictLookup_dictSet_self]

theorem claim_C4_offset_nonneg_monotone_witness :
    ∃ out, run_once cfgW ⟨.ok snapW, some ['x'], true⟩
        (some (save_last_state stateOffsetHundred)) = .ok out
      ∧ 0 ≤ out.newPos
      ∧ (∃ i : Int, dictGetD out.loadedState logPosKey (PyVal.leaf (.int 0))
          = PyVal.leaf (.int i) ∧ 0 ≤ i ∧ i ≤ out.newPos) := by
  refine ⟨_, rfl, ?_, ?_⟩
  · exact (claim_C4_offset_nonneg_monotone cfgW ⟨.ok snapW, some ['x'], true⟩
      (some (save_last_state stateOffsetHundred)) _ rfl).1
  · exact (claim_C4_offset_nonneg_monotone cfgW ⟨.ok snapW, some ['x'], true⟩
      (some (save_last_state stateOffsetHundred)) _ rfl).2.2 (by simp)

/-- C5 counterexample: in interval mode, a metrics collection failure in
one cycle ends the whole loop with an uncaught exception: even though the
next scheduled cycle would have succeeded, it never runs, so the scheduler
does crash on a single cycle's internal error. -/
theorem claim_C5_cex :
    main_loop cfgW [envBadMetrics, envQuiet] none = (none, some RunErr.collection)
    ∧ (∃ out, run_once cfgW envQuiet none = .ok out) :=
  ⟨rfl, ⟨_, rfl⟩⟩

/-- C5 (amended): a metrics collection failure aborts the failing cycle
with nothing persisted — the loop result still holds the state file
content from before the cycle — but the exception propagates out of the
interval loop: the loop terminates with that error and no further cycle
(scheduled after it) is executed. -/
theorem claim_C5_collection_stops_loop (cfg : Config) (e : Env) (rest : List Env)
    (st : Option (List Char)) (u : Unit) (hm : e.metricsResult = .error u) :
    main_loop cfg (e :: rest) st = (st, some RunErr.collection) := by
  unfold main_loop
  rw [run_once_collection cfg e st u hm]

theorem claim_C5_collection_stops_loop_witness :
    main_loop cfgW (envBadMetrics :: [envQuiet]) none = (none, some RunErr.collection) :=
  claim_C5_collection_stops_loop cfgW envBadMetrics [envQuiet] none () rfl

/-- C2 counterexample: save_last_state writes the serialized record
directly to the target path after truncation, with no temporary file and
no rename.  Among the contents a crash during the write can leave behind
is one that is neither the previous file content nor the new record and
that does not parse — a reader can observe a half-written state file, so
the save is not atomic. -/
theorem claim_C2_cex :
    ((save_last_state stateOffsetHundred).take 1) ∈ save_crash_contents stateOffsetHundred
    ∧ (save_last_state stateOffsetHundred).take 1 ≠ save_last_state stateWithExtra
    ∧ (save_last_state stateOffsetHundred).take 1 ≠ save_last_state stateOffsetHundred
    ∧ (json_load ((save_last_state stateOffsetHundred).take 1)).isNone = true := by
  decide

/-- C2 (amended): save_last_state is not atomic: it truncates the target
file and writes the new serialization in place, so a crash can expose any
prefix of it.  What does hold: every crash-observable content is a prefix
of the new serialized record, and because load_last_state treats
unparsable content as the empty default record, a load after an
interrupted save yields either the default (empty) state or the complete
new state — never a partial record, and never the previous state, which
the truncation destroyed. -/
theorem claim_C2_crash_window (kvs : List (List Char × PyVal)) (c : List Char)
    (hv : topPairsValid kvs = true)
    (hc : c ∈ save_crash_contents (.dictDoc kvs)) :
    (∃ n, c = (save_last_state (.dictDoc kvs)).take n)
    ∧ (load_last_state (some c) = PyDoc.dictDoc []
       ∨ load_last_state (some c) = .dictDoc kvs) := by
  unfold save_crash_contents at hc
  simp only [List.mem_map, List.mem_range] at hc
  obtain ⟨i, hi, hci⟩ := hc
  constructor
  · exact ⟨i, hci.symm⟩
  · by_cases hlen : (dumpDoc (.dictDoc kvs)).length ≤ i
    · right
      have hc2 : c = dumpDoc (.dictDoc kvs) := by
        rw [← hci]
        exact List.take_of_length_le hlen
      rw [hc2]
      show (match json_load (dumpDoc (.dictDoc kvs)) with
            | some v => v
            | none => PyDoc.dictDoc []) = PyDoc.dictDoc kvs
      rw [json_load_dump _ (by simpa [docValid] using hv)]
    · left
      have hsplit : dumpDoc (.dictDoc kvs) = c ++ (dumpDoc (.dictDoc kvs)).drop i := by
        rw [← hci]
        exact (List.take_append_drop i _).symm
      have hqne : (dumpDoc (.dictDoc kvs)).drop i ≠ [] := by
        intro hnil
        have := congrArg List.length hnil
        simp at this
        omega
      show (match json_load c with
            | some v => v
            | none => PyDoc.dictDoc []) = PyDoc.dictDoc []
      rw [json_load_dump_cutoff kvs c _ hv hsplit hqne]

theorem claim_C2_crash_window_witness :
    (∃ n, ((save_last_state stateOffsetHundred).take 3)
        = (save_last_state stateOffsetHundred).take n)
    ∧ (load_last_state (some ((save_last_state stateOffsetHundred).take 3))
        = PyDoc.dictDoc []
       ∨ load_last_state (some ((save_last_state stateOffsetHundred).take 3))
        = stateOffsetHundred) :=
  claim_C2_crash_window [(logPosKey, .leaf (.int 100))]
    ((save_last_state stateOffsetHundred).take 3) (by decide) (by decide)
